import Mathlib

/-! # godb: ordered index, result cache and table engine

A shallow embedding of `btree/btree.go`, `cache/cache.go`, `table.go` and
`database.go`.

Conventions of the embedding.

* A Go `interface{}` value is a `Val`: the nil interface, the five value kinds a
  column type admits (`int`, `string`, `float64`, `bool`, `[]byte`) and `[]int`
  (the dynamic type `Table.Select` asserts on an index payload).  A `float64` is
  carried as its IEEE-754 bit pattern.
* A run-time panic is `Except.error f` with `f : Fault`; a Go `error` result is a
  value of `DbError`.
* Pointers to nodes are never shared between two parents, so a `*Node` is a tree
  value and an in-place update returns the updated tree.
* A Go map with string keys is an association list read with `List.lookup`;
  `range` over a map enumerates the list from its head.
* A Go map value is a reference to a map object.  `Table` carries its rows and
  hash indexes as values, which is the behaviour when no map object is reached
  twice; `HeapTable` keeps the row maps and the hash index maps at addresses, so
  that the map handed to `Insert` may be one of the stored rows (`Insert_deref`
  relates the two).
-/

namespace GoDB

/-! ## Values and run-time panics -/

/-- Run-time panics. `fuel` is not a Go panic: it marks an exhausted recursion
budget of the embedding, and `BTree.Insert` and `BTree.Search` never return it
(`Insert_ne_fuel`, `Search_ne_fuel`). -/
inductive Fault where
  | typeAssertion
  | nilDeref
  | indexOutOfRange
  | sliceBounds
  | uncomparable
  | unhashable
  | fuel
  deriving DecidableEq, Repr

deriving instance DecidableEq for Except

/-- A Go `interface{}` value. -/
inductive Val where
  | nil
  | int (i : Int)
  | str (s : String)
  | float (bits : Nat)
  | bool (b : Bool)
  | bytes (b : List Nat)
  | ints (l : List Int)
  deriving DecidableEq, Repr

/-- The type assertion `v.(int)`, which panics on any other dynamic type. -/
def Val.asInt : Val → Except Fault Int
  | .int i => .ok i
  | _ => .error .typeAssertion

/-- Indexing `xs[i]` with Go's bounds check. -/
def idx {α : Type} (xs : List α) (i : Nat) : Except Fault α :=
  match xs[i]? with
  | some x => .ok x
  | none => .error .indexOutOfRange

/-- The slice expression `xs[:n]`; the bound is checked against the length. -/
def sliceTo {α : Type} (xs : List α) (n : Nat) : Except Fault (List α) :=
  if n ≤ xs.length then .ok (xs.take n) else .error .sliceBounds

/-- The slice expression `xs[n:]`. -/
def sliceFrom {α : Type} (xs : List α) (n : Nat) : Except Fault (List α) :=
  if n ≤ xs.length then .ok (xs.drop n) else .error .sliceBounds

/-! ## Ordered index (`btree/btree.go`) -/

/-- Minimum degree of the B-tree. -/
def degree : Nat := 4

/-- A key with its payload. -/
structure Item where
  Key : Val
  Value : Val
  deriving DecidableEq, Repr

/-- The zero value `Item{}`: both fields are the nil interface. -/
def Item.zero : Item := ⟨.nil, .nil⟩

/-- A tree node. -/
inductive Node where
  | mk (Leaf : Bool) (Keys : List Item) (Children : List Node)
  deriving Repr

/-- Field `Leaf`. -/
def Node.Leaf : Node → Bool
  | .mk l _ _ => l

/-- Field `Keys`. -/
def Node.Keys : Node → List Item
  | .mk _ ks _ => ks

/-- Field `Children`. -/
def Node.Children : Node → List Node
  | .mk _ _ cs => cs

mutual
/-- Number of levels of a node. -/
def Node.height : Node → Nat
  | .mk _ _ cs => heightList cs + 1
/-- Largest height in a list of nodes. -/
def heightList : List Node → Nat
  | [] => 0
  | c :: cs => max c.height (heightList cs)
end

/-- The tree: a pointer to its root. -/
structure BTree where
  Root : Node
  deriving Repr

/-- `NewBTree`: a single empty leaf. -/
def NewBTree : BTree := ⟨.mk true [] []⟩

/-- The loop `for i >= 0 && key.(int) < node.Keys[i].Key.(int)` of the leaf branch
of `insertNonFull`, with `j = i + 1`: each round copies `Keys[i]` to `Keys[i+1]`.
Returns the keys and the final `i + 1`. -/
def shiftLoop (key : Val) : List Item → Nat → Except Fault (List Item × Nat)
  | keys, 0 => .ok (keys, 0)
  | keys, i + 1 => do
    let k ← key.asInt
    let it ← idx keys i
    let ki ← it.Key.asInt
    if k < ki then shiftLoop key (keys.set (i + 1) it) i else .ok (keys, i + 1)

/-- The loop `for i >= 0 && key.(int) < node.Keys[i].Key.(int) { i-- }` of the
internal branch of `insertNonFull`, with `j = i + 1`; returns the final `i + 1`. -/
def descendLoop (key : Val) (keys : List Item) : Nat → Except Fault Nat
  | 0 => .ok 0
  | i + 1 => do
    let k ← key.asInt
    let it ← idx keys i
    let ki ← it.Key.asInt
    if k < ki then descendLoop key keys i else .ok (i + 1)

/-- `splitChild(parent, i)`. The new sibling starts as `make([]Item, degree-1)`,
three zero items, and the upper keys of the child are appended to it. -/
def splitChild (parent : Node) (i : Nat) : Except Fault Node := do
  let child ← idx parent.Children i
  let newKeys0 : List Item := List.replicate (degree - 1) Item.zero
  let front ← sliceTo parent.Children (i + 1)
  let back ← sliceFrom parent.Children (i + 1)
  let keysFront ← sliceTo parent.Keys i
  let median ← idx child.Keys (degree - 1)
  let keysBack ← sliceFrom parent.Keys i
  let parentKeys := keysFront ++ ([median] ++ keysBack)
  let upper ← sliceFrom child.Keys degree
  let newKeys := newKeys0 ++ upper
  let lower ← sliceTo child.Keys (degree - 1)
  if !child.Leaf then
    let upperCh ← sliceFrom child.Children degree
    let lowerCh ← sliceTo child.Children degree
    let child1 := Node.mk child.Leaf lower lowerCh
    let newChild := Node.mk child.Leaf newKeys ([] ++ upperCh)
    .ok (.mk parent.Leaf parentKeys ((front.set i child1) ++ ([newChild] ++ back)))
  else
    let child1 := Node.mk child.Leaf lower child.Children
    let newChild := Node.mk child.Leaf newKeys []
    .ok (.mk parent.Leaf parentKeys ((front.set i child1) ++ ([newChild] ++ back)))

/-- `insertNonFull(node, key, value)`; the first argument bounds the recursion
depth. -/
def insertNonFull : Nat → Node → Val → Val → Except Fault Node
  | 0, _, _, _ => .error .fuel
  | fuel + 1, node, key, value =>
    if node.Leaf then do
      let keys := node.Keys ++ [Item.zero]
      let (keys, j) ← shiftLoop key keys node.Keys.length
      if j < keys.length then
        .ok (.mk node.Leaf (keys.set j ⟨key, value⟩) node.Children)
      else .error .indexOutOfRange
    else do
      let i ← descendLoop key node.Keys node.Keys.length
      let c ← idx node.Children i
      if c.Keys.length = 2 * degree - 1 then do
        let node ← splitChild node i
        let k ← key.asInt
        let it ← idx node.Keys i
        let ki ← it.Key.asInt
        let i := if k > ki then i + 1 else i
        let c ← idx node.Children i
        let c ← insertNonFull fuel c key value
        .ok (.mk node.Leaf node.Keys (node.Children.set i c))
      else do
        let c ← insertNonFull fuel c key value
        .ok (.mk node.Leaf node.Keys (node.Children.set i c))

/-- `BTree.Insert(key, value)`. -/
def BTree.Insert (t : BTree) (key value : Val) : Except Fault BTree :=
  let root := t.Root
  if root.Keys.length = 2 * degree - 1 then do
    let newRoot := Node.mk false [] [root]
    let newRoot ← splitChild newRoot 0
    let newRoot ← insertNonFull (newRoot.height + 1) newRoot key value
    .ok ⟨newRoot⟩
  else do
    let root ← insertNonFull (root.height + 1) root key value
    .ok ⟨root⟩

/-- The loop `for i < len(node.Keys) && key.(int) > node.Keys[i].Key.(int) { i++ }`
of `searchNode`, run over the keys still ahead; returns the final `i`. -/
def scanLoop (key : Val) : List Item → Nat → Except Fault Nat
  | [], i => .ok i
  | it :: rest, i => do
    let k ← key.asInt
    let ki ← it.Key.asInt
    if k > ki then scanLoop key rest (i + 1) else .ok i

/-- `searchNode(node, key)`; the first argument bounds the recursion depth. The
result is the payload, or `Val.nil` for not found. -/
def searchNode : Nat → Node → Val → Except Fault Val
  | 0, _, _ => .error .fuel
  | fuel + 1, node, key => do
    let i ← scanLoop key node.Keys 0
    let hit ← (match node.Keys[i]? with
      | some it => do
        let k ← key.asInt
        let ki ← it.Key.asInt
        pure (if k = ki then some it.Value else none)
      | none => pure none : Except Fault (Option Val))
    match hit with
    | some v => .ok v
    | none =>
      if node.Leaf then .ok .nil
      else do
        let c ← idx node.Children i
        searchNode fuel c key

/-- `BTree.Search(key)`. -/
def BTree.Search (t : BTree) (key : Val) : Except Fault Val :=
  searchNode (t.Root.height + 1) t.Root key

/-- Insert the pairs of a list in order into a tree. -/
def BTree.insertAll : BTree → List (Int × Val) → Except Fault BTree
  | t, [] => .ok t
  | t, (k, v) :: rest => do
    let t ← t.Insert (.int k) v
    BTree.insertAll t rest

/-- Insert the pairs of a list in order into a tree, the keys being any values. -/
def BTree.insertSeq : BTree → List (Val × Val) → Except Fault BTree
  | t, [] => .ok t
  | t, (k, v) :: rest => do
    let t ← t.Insert k v
    BTree.insertSeq t rest

mutual
/-- The nodes below a node: its children and their descendants. -/
def Node.descendants : Node → List Node
  | .mk _ _ cs => descendantsList cs
/-- The nodes of a list of subtrees. -/
def descendantsList : List Node → List Node
  | [] => []
  | c :: cs => c :: (c.descendants ++ descendantsList cs)
end

mutual
/-- The depth, counted from a node, of every leaf at or below it. -/
def Node.leafDepths : Node → List Nat
  | .mk leaf _ cs => if leaf then [0] else (leafDepthsList cs).map (fun d => d + 1)
/-- The depths of the leaves of a list of subtrees, counted from their roots. -/
def leafDepthsList : List Node → List Nat
  | [] => []
  | c :: cs => c.leafDepths ++ leafDepthsList cs
end

/-- A subtree of uniform height `h` whose nodes below the top hold between
`degree - 1` and `2 * degree - 1` items; its leaves have no children. -/
def Node.Shaped : Nat → Node → Prop
  | 0, node => node.Leaf = true ∧ node.Children = []
  | h + 1, node => node.Leaf = false ∧
    ∀ c ∈ node.Children,
      degree - 1 ≤ c.Keys.length ∧ c.Keys.length ≤ 2 * degree - 1 ∧ Node.Shaped h c

/-- The items of a leaf holding the given integer keys with their payloads. -/
def items (l : List (Int × Val)) : List Item := l.map (fun p => ⟨.int p.1, p.2⟩)

/-! ## Result cache (`cache/cache.go`)

The recency list `lru` is kept front (most recently used) first. The map `items`
holds, for every element of the list, a pointer to it under the element's key and
nothing else, so `c.items[key]` is read off the list. -/

/-- An element of the recency list. -/
structure entry (V : Type) where
  key : String
  value : V
  deriving DecidableEq, Repr

/-- The cache: its capacity and its recency list. -/
structure Cache (V : Type) where
  capacity : Int
  lru : List (entry V)
  deriving DecidableEq, Repr

/-- `NewCache(capacity)`. -/
def NewCache {V : Type} (capacity : Int) : Cache V := ⟨capacity, []⟩

/-- The lookup `c.items[key]`. -/
def Cache.items {V : Type} (c : Cache V) (key : String) : Option (entry V) :=
  c.lru.find? (fun e => e.key == key)

/-- `lru.MoveToFront(ele)`: unlink the element and put `e`, its current content,
at the front. -/
def moveToFront {V : Type} (e : entry V) (l : List (entry V)) : List (entry V) :=
  e :: l.eraseP (fun x => x.key == e.key)

/-- `removeOldest`: drop the back of the list, if there is one. -/
def Cache.removeOldest {V : Type} (c : Cache V) : Cache V :=
  match c.lru.getLast? with
  | some _ => { c with lru := c.lru.dropLast }
  | none => c

/-- `Get(key)`: the pair `(payload, found)` and the cache afterwards; the
payload `none` is the nil interface. -/
def Cache.Get {V : Type} (c : Cache V) (key : String) : (Option V × Bool) × Cache V :=
  match c.items key with
  | some ele => ((some ele.value, true), { c with lru := moveToFront ele c.lru })
  | none => ((none, false), c)

/-- `Set(key, value)`. -/
def Cache.Set {V : Type} (c : Cache V) (key : String) (value : V) : Cache V :=
  match c.items key with
  | some ele => { c with lru := moveToFront { ele with value := value } c.lru }
  | none =>
    let c1 : Cache V := { c with lru := ⟨key, value⟩ :: c.lru }
    if (c1.lru.length : Int) > c1.capacity then c1.removeOldest else c1

/-- A call on the cache. -/
inductive Op (V : Type) where
  | get (key : String)
  | set (key : String) (value : V)
  deriving DecidableEq, Repr

/-- The cache after one call. -/
def Cache.step {V : Type} (c : Cache V) : Op V → Cache V
  | .get k => (c.Get k).2
  | .set k v => c.Set k v

/-- The cache after a sequence of calls. -/
def Cache.run {V : Type} (c : Cache V) (ops : List (Op V)) : Cache V :=
  ops.foldl Cache.step c

/-- The resident keys, most recently used first. -/
def Cache.keys {V : Type} (c : Cache V) : List String := c.lru.map (fun e => e.key)

/-- The key a call touches: a `Set` touches its key, a `Get` touches it on a hit. -/
def touched {V : Type} (c : Cache V) : Op V → List String
  | .get k => if (c.Get k).1.2 then [k] else []
  | .set k _ => [k]

/-- The keys touched by a sequence of calls, oldest first. -/
def touchLog {V : Type} (c : Cache V) : List (Op V) → List String
  | [] => []
  | op :: ops => touched c op ++ touchLog (c.step op) ops

/-- The distinct keys of a touch sequence given newest first, each at its most
recent position. -/
def recent : List String → List String
  | [] => []
  | k :: ks => k :: (recent ks).filter (fun x => x != k)

/-- The payload a call sets for `k`, if it is a `Set` on `k`. -/
def Op.setsKey {V : Type} (k : String) : Op V → Option V
  | .set k1 v => if k1 = k then some v else none
  | .get _ => none

/-- The payload of the most recent `Set(k, _)` in a sequence of calls. -/
def lastSet {V : Type} (ops : List (Op V)) (k : String) : Option V :=
  ops.reverse.findSome? (Op.setsKey k)

/-! ## Table engine (`table.go`) -/

/-- Whether a `float64` bit pattern is a NaN. -/
def floatIsNaN (b : Nat) : Bool := (b / 2 ^ 52) % 2 ^ 11 == 2 ^ 11 - 1 && b % 2 ^ 52 != 0

/-- Go `==` on two `float64` bit patterns: a NaN equals nothing, the two zeros are
equal. -/
def floatEq (a b : Nat) : Bool :=
  !floatIsNaN a && !floatIsNaN b && (a == b || (a % 2 ^ 63 == 0 && b % 2 ^ 63 == 0))

/-- Go `==` on two interface values: values of different dynamic type are unequal,
and comparing two values of the same uncomparable type (a slice) panics. -/
def Val.goEq : Val → Val → Except Fault Bool
  | .nil, .nil => .ok true
  | .int a, .int b => .ok (a == b)
  | .str a, .str b => .ok (a == b)
  | .float a, .float b => .ok (floatEq a b)
  | .bool a, .bool b => .ok (a == b)
  | .bytes _, .bytes _ => .error .uncomparable
  | .ints _, .ints _ => .error .uncomparable
  | _, _ => .ok false

/-- Whether `==` is defined on two values of this dynamic type: slices are not
comparable. -/
def Val.comparable : Val → Bool
  | .bytes _ => false
  | .ints _ => false
  | _ => true

/-- A row, and a predicate: a map from column name to value. -/
abbrev Row := List (String × Val)

/-- The read `row[key]`, the nil interface when the key is absent. -/
def Row.at (row : Row) (key : String) : Val := (row.lookup key).getD .nil

/-- The declared type of a column, a string. -/
abbrev ColumnType := String

/-- Column type `STRING`. -/
def TypeString : ColumnType := "STRING"
/-- Column type `INTEGER`. -/
def TypeInteger : ColumnType := "INTEGER"
/-- Column type `FLOAT`. -/
def TypeFloat : ColumnType := "FLOAT"
/-- Column type `BOOLEAN`. -/
def TypeBoolean : ColumnType := "BOOLEAN"
/-- Column type `BLOB`. -/
def TypeBlob : ColumnType := "BLOB"

/-- A column declaration; `ColType` is the field `Type`. -/
structure Column where
  Name : String
  ColType : ColumnType
  Indexed : Bool
  PrimaryKey : Bool
  NotNull : Bool
  Unique : Bool
  DefaultVal : Val
  deriving DecidableEq, Repr

/-- A hash index `map[interface{}][]int`, in insertion order of its keys. -/
abbrev HashIndex := List (Val × List Nat)

/-- Whether a value can be a map key: slices cannot be hashed. -/
def Val.hashable : Val → Bool
  | .bytes _ => false
  | .ints _ => false
  | _ => true

/-- Whether a stored map key is the key `k`: Go `==` on hashable values. -/
def Val.keyEq (a k : Val) : Bool := a.goEq k == .ok true

/-- The read `index[value]`, nil when absent; hashing a slice panics. -/
def HashIndex.get (m : HashIndex) (k : Val) : Except Fault (List Nat) :=
  if k.hashable then
    match m.find? (fun p => p.1.keyEq k) with
    | some p => .ok p.2
    | none => .ok []
  else .error .unhashable

/-- The assignment `index[value] = bucket`. When an equal key is stored, the entry
takes the new bucket and the stored key becomes `value` (of two equal keys that
differ, `+0` and `-0`, the map keeps the one assigned last). -/
def HashIndex.set (m : HashIndex) (k : Val) (bucket : List Nat) : Except Fault HashIndex :=
  if k.hashable then
    if m.any (fun p => p.1.keyEq k) then
      .ok (m.map (fun p => if p.1.keyEq k then (k, bucket) else p))
    else .ok (m ++ [(k, bucket)])
  else .error .unhashable

/-- The errors the table engine and the database container return. -/
inductive DbError where
  | cannotBeNull (col : String)
  | duplicateUnique (col : String)
  | primaryKeyNull (col : String)
  | duplicatePrimaryKey (col : String)
  | missingValue (col : String)
  | invalidType (col : String) (expected : ColumnType)
  | unexpectedRowIndices
  | tableExists (name : String)
  | tableNotFound (name : String)
  deriving DecidableEq, Repr

/-- A table. `QueryCache` is a pointer and may be nil. -/
structure Table where
  Name : String
  Columns : List Column
  Rows : List Row
  Indexes : List (String × HashIndex)
  PrimaryKey : String
  UniqueKeys : List (String × Bool)
  BTreeIndexes : List (String × BTree)
  QueryCache : Option (Cache (List Row))
  deriving Repr

/-- The assignment `m[key] = v` on a map with string keys. -/
def assocSet {β : Type} (m : List (String × β)) (key : String) (v : β) : List (String × β) :=
  if m.any (fun p => p.1 == key) then m.map (fun p => if p.1 == key then (p.1, v) else p)
  else m ++ [(key, v)]

/-- The loop of `createBTreeIndex`: insert `(row[columnName], i)` for every row that
has the column, `i` counting from the position of the first row given. -/
def indexRows (columnName : String) : BTree → List Row → Nat → Except Fault BTree
  | tree, [], _ => .ok tree
  | tree, row :: rest, i =>
    match row.lookup columnName with
    | some value => do
      let tree ← tree.Insert value (.int i)
      indexRows columnName tree rest (i + 1)
    | none => indexRows columnName tree rest (i + 1)

/-- `createBTreeIndex(columnName)`. -/
def Table.createBTreeIndex (t : Table) (columnName : String) : Except Fault Table := do
  let tree ← indexRows columnName NewBTree t.Rows 0
  .ok { t with BTreeIndexes := assocSet t.BTreeIndexes columnName tree }

/-- The first loop of `Insert`: a column absent from `values` takes its default
when the default is not nil. -/
def applyDefaults : List Column → Row → Row
  | [], values => values
  | col :: cols, values =>
    if (values.lookup col.Name).isNone && col.DefaultVal != .nil then
      applyDefaults cols (values ++ [(col.Name, col.DefaultVal)])
    else applyDefaults cols values

/-- `isDuplicate(colName, value)` over the rows. -/
def isDuplicate (colName : String) (value : Val) : List Row → Except Fault Bool
  | [] => .ok false
  | row :: rest => do
    if ← (row.at colName).goEq value then .ok true else isDuplicate colName value rest

/-- The body of the constraint loop of `Insert` for one column: the error it
returns, if any. -/
def checkColumn (rows : List Row) (values : Row) (col : Column) :
    Except Fault (Option DbError) :=
  let val := values.at col.Name
  let present := (values.lookup col.Name).isSome
  if col.NotNull && (!present || val == .nil) then .ok (some (.cannotBeNull col.Name))
  else do
    let dupU ← if col.Unique then isDuplicate col.Name val rows else .ok false
    if dupU then .ok (some (.duplicateUnique col.Name))
    else if col.PrimaryKey then
      if val == .nil then .ok (some (.primaryKeyNull col.Name))
      else do
        if ← isDuplicate col.Name val rows then .ok (some (.duplicatePrimaryKey col.Name))
        else .ok none
    else .ok none

/-- The constraint loop of `Insert`: the first error, if any. -/
def checkConstraints (rows : List Row) (values : Row) : List Column →
    Except Fault (Option DbError)
  | [] => .ok none
  | col :: cols => do
    match ← checkColumn rows values col with
    | some e => .ok (some e)
    | none => checkConstraints rows values cols

/-- `isValidType(value, expectedType)`. -/
def isValidType (value : Val) (expectedType : ColumnType) : Bool :=
  if expectedType = TypeString then
    match value with | .str _ => true | _ => false
  else if expectedType = TypeInteger then
    match value with | .int _ => true | _ => false
  else if expectedType = TypeFloat then
    match value with | .float _ => true | _ => false
  else if expectedType = TypeBoolean then
    match value with | .bool _ => true | _ => false
  else if expectedType = TypeBlob then
    match value with | .bytes _ => true | _ => false
  else false

/-- The type loop of `Insert`: the first error, if any. -/
def checkTypes (values : Row) : List Column → Option DbError
  | [] => none
  | col :: cols =>
    match values.lookup col.Name with
    | none => some (.missingValue col.Name)
    | some val =>
      if !isValidType val col.ColType then some (.invalidType col.Name col.ColType)
      else checkTypes values cols

/-- The index loop of `Insert`: append the new position to the bucket of the new
row's value in every registered hash index. -/
def updateIndexes (values : Row) (rowIndex : Nat) : List (String × HashIndex) →
    Except Fault (List (String × HashIndex))
  | [] => .ok []
  | (colName, index) :: rest => do
    let value := values.at colName
    let bucket ← index.get value
    let index ← index.set value (bucket ++ [rowIndex])
    let rest ← updateIndexes values rowIndex rest
    .ok ((colName, index) :: rest)

/-- `Table.Insert(values)` on a table read as a value: the error returned (`none`
for nil) and the table afterwards. `Insert` writes the defaults into the map it is
given and stores that map; here `values` is the content of a map object that is
not reached from the table, so no stored row sees the write. `HeapTable.Insert`
is the call with the maps at addresses, and `Insert_deref` shows that the two
agree when no map object is reached twice. -/
def Table.Insert (t : Table) (values : Row) : Except Fault (Option DbError × Table) := do
  let values := applyDefaults t.Columns values
  match ← checkConstraints t.Rows values t.Columns with
  | some e => .ok (some e, t)
  | none =>
    match checkTypes values t.Columns with
    | some e => .ok (some e, t)
    | none => do
      let rowIndex := t.Rows.length
      let rows := t.Rows ++ [values]
      let indexes ← updateIndexes values rowIndex t.Indexes
      .ok (none, { t with Rows := rows, Indexes := indexes })

/-- The `%v` rendering of a value; the rendering of a `float64` is a parameter. -/
def fmtVal (fmtFloat : Nat → String) : Val → String
  | .nil => "<nil>"
  | .int i => toString i
  | .str s => s
  | .float b => fmtFloat b
  | .bool b => toString b
  | .bytes b => "[" ++ " ".intercalate (b.map toString) ++ "]"
  | .ints l => "[" ++ " ".intercalate (l.map toString) ++ "]"

/-- `generateCacheKey(conditions)`, the conditions in the order `range` yields
them. -/
def generateCacheKey (fmtFloat : Nat → String) (conditions : Row) : String :=
  conditions.foldl (fun key c => key ++ (c.1 ++ "=" ++ fmtVal fmtFloat c.2 ++ ";")) ""

/-- `matchesAllConditions(row, conditions)`; the inner loop of the full scan of
`Select` is the same loop. -/
def matchesAllConditions (row : Row) : Row → Except Fault Bool
  | [] => .ok true
  | (key, value) :: rest => do
    if ← (row.at key).goEq value then matchesAllConditions row rest else .ok false

/-- The full table scan of `Select`. -/
def scanRows (conditions : Row) : List Row → Except Fault (List Row)
  | [] => .ok []
  | row :: rest => do
    let matched ← matchesAllConditions row conditions
    let results ← scanRows conditions rest
    .ok (if matched then row :: results else results)

/-- The loop of `Select` over the positions an ordered index returned. -/
def collectRows (rows : List Row) (conditions : Row) : List Int → Except Fault (List Row)
  | [] => .ok []
  | i :: rest => do
    let row ← if 0 ≤ i then idx rows i.toNat else .error .indexOutOfRange
    let m ← matchesAllConditions row conditions
    let results ← collectRows rows conditions rest
    .ok (if m then row :: results else results)

/-- The first condition, in enumeration order, whose column has an ordered index. -/
def firstIndexed (trees : List (String × BTree)) : Row → Option (BTree × Val)
  | [] => none
  | (colName, value) :: rest =>
    match trees.lookup colName with
    | some tree => some (tree, value)
    | none => firstIndexed trees rest

/-- `Table.Select(conditions)`: the pair `(rows, error)` as an `Except`, and the
table afterwards (its cache may have changed). -/
def Table.Select (fmtFloat : Nat → String) (t : Table) (conditions : Row) :
    Except Fault (Except DbError (List Row) × Table) :=
  let cacheKey := generateCacheKey fmtFloat conditions
  match t.QueryCache with
  | none => .error .nilDeref
  | some cache =>
    match cache.Get cacheKey with
    | ((results, true), cache) =>
      match results with
      | some rows => .ok (.ok rows, { t with QueryCache := some cache })
      | none => .error .typeAssertion
    | ((_, false), cache) =>
      let t := { t with QueryCache := some cache }
      match firstIndexed t.BTreeIndexes conditions with
      | some (tree, value) => do
        let rowIndicesInterface ← tree.Search value
        match rowIndicesInterface with
        | .ints rowIndices => do
          let results ← collectRows t.Rows conditions rowIndices
          .ok (.ok results, { t with QueryCache := some (cache.Set cacheKey results) })
        | _ => .ok (.error .unexpectedRowIndices, t)
      | none => do
        let results ← scanRows conditions t.Rows
        .ok (.ok results, t)

/-- The ascending positions, counted from `i`, of the rows that hold the value `v`
in column `c`. -/
def holders (c : String) (v : Val) : List Row → Nat → List Nat
  | [], _ => []
  | row :: rest, i =>
    if (row.at c).keyEq v then i :: holders c v rest (i + 1) else holders c v rest (i + 1)

/-! ## Table engine: rows and hash indexes as shared maps -/

/-- A table with its maps at addresses. `maps a` is the content of the row map
object at address `a` and `imaps a` that of the hash index map object at address
`a`; `Rows` lists the addresses of the stored rows and `Indexes` gives the address
of the index map of a column. One map object may be stored at several positions,
and a caller may hold it too. An address stands for a map that was made (a
literal or `make`), not for a nil map. -/
structure HeapTable where
  maps : Nat → Row
  imaps : Nat → HashIndex
  Name : String
  Columns : List Column
  Rows : List Nat
  Indexes : List (String × Nat)
  PrimaryKey : String
  UniqueKeys : List (String × Bool)
  BTreeIndexes : List (String × BTree)
  QueryCache : Option (Cache (List Row))

/-- The table read through its addresses. -/
def HeapTable.deref (t : HeapTable) : Table :=
  ⟨t.Name, t.Columns, t.Rows.map t.maps, t.Indexes.map (fun p => (p.1, t.imaps p.2)),
    t.PrimaryKey, t.UniqueKeys, t.BTreeIndexes, t.QueryCache⟩

/-- The index loop of `Insert` on index map objects: every registered index map
takes the new position in the bucket of the new row's value, one after the
other. -/
def updateIndexRefs (values : Row) (rowIndex : Nat) :
    (Nat → HashIndex) → List (String × Nat) → Except Fault (Nat → HashIndex)
  | imaps, [] => .ok imaps
  | imaps, (colName, a) :: rest => do
    let value := values.at colName
    let bucket ← (imaps a).get value
    let index ← (imaps a).set value (bucket ++ [rowIndex])
    updateIndexRefs values rowIndex (Function.update imaps a index) rest

/-- `Table.Insert(values)`, `values` being the address of the map passed: the
defaults are written into that map object before anything is checked, the checks
read the stored rows after that write, and on success the address itself is
appended to `Rows`. -/
def HeapTable.Insert (t : HeapTable) (values : Nat) :
    Except Fault (Option DbError × HeapTable) := do
  let t := { t with
    maps := Function.update t.maps values (applyDefaults t.Columns (t.maps values)) }
  match ← checkConstraints (t.Rows.map t.maps) (t.maps values) t.Columns with
  | some e => .ok (some e, t)
  | none =>
    match checkTypes (t.maps values) t.Columns with
    | some e => .ok (some e, t)
    | none => do
      let rowIndex := t.Rows.length
      let imaps ← updateIndexRefs (t.maps values) rowIndex t.imaps t.Indexes
      .ok (none, { t with Rows := t.Rows ++ [values], imaps := imaps })

/-! ## Database container (`database.go`) -/

/-- A database: the map `Tables` holds tables by value; it is the map `NewDatabase`
makes, never nil. -/
structure Database where
  Name : String
  Tables : List (String × Table)
  deriving Repr

/-- `NewDatabase(name)`. -/
def NewDatabase (name : String) : Database := ⟨name, []⟩

/-- `CreateTable(name, columns)`: the error returned (`none` for nil) and the
database afterwards. The fields the composite literal leaves out are zero: no
ordered indexes and a nil `QueryCache`. -/
def Database.CreateTable (db : Database) (name : String) (columns : List Column) :
    Option DbError × Database :=
  match db.Tables.lookup name with
  | some _ => (some (.tableExists name), db)
  | none =>
    (none, { db with Tables := assocSet db.Tables name ⟨name, columns, [], [], "", [], [], none⟩ })

/-- `GetTable(name)`: a pointer to a copy of the stored table, or the error. -/
def Database.GetTable (db : Database) (name : String) : Except DbError Table :=
  match db.Tables.lookup name with
  | some table => .ok table
  | none => .error (.tableNotFound name)

/-! ## Concrete inputs -/

/-- Eight distinct keys with their payloads, in insertion order. -/
def pairs8 : List (Int × Val) :=
  [(1, .str "p1"), (2, .str "p2"), (3, .str "p3"), (4, .str "p4"),
   (5, .str "p5"), (6, .str "p6"), (7, .str "p7"), (8, .str "p8")]

/-- The tree the program builds from `pairs8`: the eighth insert splits the root. -/
def tree8 : BTree :=
  ⟨.mk false [⟨.int 4, .str "p4"⟩]
    [.mk true [⟨.int 1, .str "p1"⟩, ⟨.int 2, .str "p2"⟩, ⟨.int 3, .str "p3"⟩] [],
     .mk true [Item.zero, Item.zero, Item.zero, ⟨.int 5, .str "p5"⟩, ⟨.int 6, .str "p6"⟩,
       ⟨.int 7, .str "p7"⟩, ⟨.int 8, .str "p8"⟩] []]⟩

/-- Columns of the table `users(id:INTEGER,PK name:STRING,NN)`. -/
def usersColumns : List Column :=
  [⟨"id", TypeInteger, false, true, true, false, .nil⟩,
   ⟨"name", TypeString, false, false, true, false, .nil⟩]

/-- The row `{id: 1, name: "alice"}`. -/
def rowAlice : Row := [("id", .int 1), ("name", .str "alice")]

/-- The row `{id: 2, name: "bob"}`. -/
def rowBob : Row := [("id", .int 2), ("name", .str "bob")]

/-- The table `users` holding alice and bob, with an empty cache and no index. -/
def usersTable : Table :=
  ⟨"users", usersColumns, [rowAlice, rowBob], [], "", [], [], some (NewCache 1000)⟩

/-- The ordered index `createBTreeIndex("id")` builds on `usersTable`. -/
def usersIdTree : BTree :=
  ⟨.mk true [⟨.int 1, .int 0⟩, ⟨.int 2, .int 1⟩] []⟩

/-- The table `usersTable` after `createBTreeIndex("id")`. -/
def usersIndexed : Table := { usersTable with BTreeIndexes := [("id", usersIdTree)] }

/-- A table with one unique `BLOB` column holding one row. -/
def blobTable : Table :=
  ⟨"files", [⟨"data", TypeBlob, false, false, false, true, .nil⟩],
    [[("data", .bytes [1])]], [], "", [], [], some (NewCache 1000)⟩

/-- The database `shop` after `CreateTable("users", usersColumns)`. -/
def shopDb : Database := ((NewDatabase "shop").CreateTable "users" usersColumns).2

/-- The table `CreateTable("users", usersColumns)` stores. -/
def usersCreated : Table := ⟨"users", usersColumns, [], [], "", [], [], none⟩

/-- The table `usersTable` with the rows of alice cached under the key `id=1;`. -/
def usersCached : Table :=
  { usersTable with QueryCache := some ⟨1000, [⟨"id=1;", [rowAlice]⟩]⟩ }

/-- A parent with one key and two leaves, the first of them full. -/
def fullChildParent : Node :=
  .mk false [⟨.int 100, .str "q"⟩]
    [.mk true (items [(1, .str "p1"), (2, .str "p2"), (3, .str "p3"), (4, .str "p4"),
        (5, .str "p5"), (6, .str "p6"), (7, .str "p7")]) [],
     .mk true (items [(101, .str "r1"), (102, .str "r2"), (103, .str "r3")]) []]

/-- Nine inserts with ascending keys. -/
def seq9 : List (Val × Val) :=
  [(.int 1, .str "p1"), (.int 2, .str "p2"), (.int 3, .str "p3"), (.int 4, .str "p4"),
   (.int 5, .str "p5"), (.int 6, .str "p6"), (.int 7, .str "p7"), (.int 8, .str "p8"),
   (.int 9, .str "p9")]

/-- The tree the program builds from `seq9`: the root and the right leaf were split. -/
def tree9 : BTree :=
  ⟨.mk false [⟨.int 4, .str "p4"⟩, ⟨.int 5, .str "p5"⟩]
    [.mk true (items [(1, .str "p1"), (2, .str "p2"), (3, .str "p3")]) [],
     .mk true [Item.zero, Item.zero, Item.zero] [],
     .mk true ([Item.zero, Item.zero, Item.zero] ++
       items [(6, .str "p6"), (7, .str "p7"), (8, .str "p8"), (9, .str "p9")]) []]⟩

/-- The inserts `(1, "a")` and `(1, "b")`, in this order. -/
def twice : List (Int × Val) := [(1, .str "a"), (1, .str "b")]

/-- The table `usersTable` with an ordered index on `id` whose payloads are
`[]int` slices of row positions, the shape `Select` asserts. -/
def usersSliceIndexed : Table :=
  { usersTable with
    BTreeIndexes := [("id", ⟨.mk true [⟨.int 1, .ints [0]⟩, ⟨.int 2, .ints [1]⟩] []⟩)] }

/-- Three inserts with the keys out of order. -/
def unsorted3 : List (Int × Val) := [(3, .str "c"), (1, .str "a"), (2, .str "b")]

/-- The tree ascending inserts build once the root has split: the root holds
`rootKeys`, its first leaf the keys 1, 2, 3, then come `n` leaves that store three
zero items only, and the last leaf stores three zero items followed by `last`. -/
def ascTree (rootKeys : List (Int × Val)) (n : Nat) (last : List (Int × Val)) : BTree :=
  ⟨.mk false (items rootKeys)
    ([.mk true (items [(1, .str "p1"), (2, .str "p2"), (3, .str "p3")]) []] ++
      List.replicate n (.mk true [Item.zero, Item.zero, Item.zero] []) ++
      [.mk true ([Item.zero, Item.zero, Item.zero] ++ items last) []])⟩

/-- Fifteen inserts with ascending keys. -/
def seq15 : List (Val × Val) :=
  seq9 ++ [(.int 10, .str "p10"), (.int 11, .str "p11"), (.int 12, .str "p12"),
    (.int 13, .str "p13"), (.int 14, .str "p14"), (.int 15, .str "p15")]

/-! ## Lemmas on the result cache -/

section CacheLemmas

variable {V : Type}

theorem find_key_some {l : List (entry V)} {k : String} {e : entry V}
    (h : l.find? (fun x => x.key == k) = some e) : e.key = k ∧ e ∈ l := by
  induction l with
  | nil => simp at h
  | cons a l ih =>
    by_cases hk : a.key = k
    · rw [List.find?_cons_of_pos _ (by simpa using hk)] at h
      cases h
      exact ⟨hk, List.mem_cons_self _ _⟩
    · rw [List.find?_cons_of_neg _ (by simpa using hk)] at h
      exact ⟨(ih h).1, List.mem_cons_of_mem _ (ih h).2⟩

theorem find_key_none {l : List (entry V)} {k : String} :
    l.find? (fun x => x.key == k) = none ↔ k ∉ l.map (fun e => e.key) := by
  induction l with
  | nil => simp
  | cons a l ih =>
    by_cases hk : a.key = k
    · rw [List.find?_cons_of_pos _ (by simpa using hk)]
      simp [hk]
    · have hk2 : ¬ k = a.key := fun h => hk h.symm
      rw [List.find?_cons_of_neg _ (by simpa using hk), ih]
      simp [hk2]

theorem find_key_isSome {l : List (entry V)} {k : String}
    (h : k ∈ l.map (fun e => e.key)) : ∃ e, l.find? (fun x => x.key == k) = some e := by
  cases hf : l.find? (fun x => x.key == k) with
  | none => exact absurd h (find_key_none.1 hf)
  | some e => exact ⟨e, rfl⟩

theorem keys_eraseP {l : List (entry V)} {k : String}
    (hn : (l.map (fun e => e.key)).Nodup) :
    (l.eraseP (fun x => x.key == k)).map (fun e => e.key)
      = (l.map (fun e => e.key)).filter (fun x => x != k) := by
  induction l with
  | nil => simp
  | cons a l ih =>
    rw [List.map_cons, List.nodup_cons] at hn
    by_cases hk : a.key = k
    · have : k ∉ l.map (fun e => e.key) := hk ▸ hn.1
      simp [List.eraseP_cons, hk]
      symm
      rw [List.filter_eq_self]
      intro x hx
      simp
      rintro rfl
      exact this (by simpa using hx)
    · simp [List.eraseP_cons, hk, ih hn.2]

theorem recent_nodup (l : List String) : (recent l).Nodup := by
  induction l with
  | nil => simp [recent]
  | cons k ks ih =>
    simp only [recent, List.nodup_cons]
    exact ⟨by simp [List.mem_filter], ih.filter _⟩

theorem take_filter_of_mem {L : List String} (hL : L.Nodup) {k : String} {n : Nat}
    (h : k ∈ L.take n) :
    (L.filter (fun x => x != k)).take (n - 1) = (L.take n).filter (fun x => x != k) := by
  induction L generalizing n with
  | nil => simp at h
  | cons a L ih =>
    cases n with
    | zero => simp at h
    | succ m =>
      rw [List.nodup_cons] at hL
      by_cases hk : a = k
      · subst hk
        have h1 : L.filter (fun x => x != a) = L := by
          rw [List.filter_eq_self]
          intro x hx
          simp
          rintro rfl
          exact hL.1 hx
        have h2 : (L.take m).filter (fun x => x != a) = L.take m := by
          rw [List.filter_eq_self]
          intro x hx
          simp
          rintro rfl
          exact hL.1 (List.mem_of_mem_take hx)
        simp [h1, h2]
      · have hk2 : k ∈ L.take m := by
          simp [List.take_succ_cons] at h
          rcases h with h | h
          · exact absurd h.symm hk
          · exact h
        have hm : m ≠ 0 := by
          rintro rfl
          simp at hk2
        obtain ⟨j, rfl⟩ := Nat.exists_eq_succ_of_ne_zero hm
        have := ih hL.2 hk2
        simp only [Nat.succ_sub_one] at this
        simp [hk, List.take_succ_cons, this]

theorem take_filter_of_not_mem {L : List String} {k : String} {n : Nat}
    (h : k ∉ L.take n) :
    (L.filter (fun x => x != k)).take n = L.take n := by
  induction L generalizing n with
  | nil => simp
  | cons a L ih =>
    cases n with
    | zero => simp
    | succ m =>
      simp [List.take_succ_cons] at h
      have hk : ¬ a = k := fun e => h.1 e.symm
      simp [hk, List.take_succ_cons, ih h.2]

theorem removeOldest_lru (c : Cache V) : c.removeOldest.lru = c.lru.dropLast := by
  unfold Cache.removeOldest
  cases h : c.lru.getLast? with
  | none =>
    rw [List.getLast?_eq_none_iff] at h
    simp [h]
  | some e => rfl

theorem removeOldest_capacity (c : Cache V) : c.removeOldest.capacity = c.capacity := by
  unfold Cache.removeOldest
  cases c.lru.getLast? <;> rfl

theorem Get_miss {c : Cache V} {k : String} (h : k ∉ c.keys) :
    c.Get k = ((none, false), c) := by
  have : c.items k = none := find_key_none.2 h
  simp [Cache.Get, this]

theorem Get_hit {c : Cache V} {k : String} (h : k ∈ c.keys) :
    ∃ e, e ∈ c.lru ∧ e.key = k ∧
      c.Get k = ((some e.value, true),
        { c with lru := e :: c.lru.eraseP (fun x => x.key == k) }) := by
  obtain ⟨e, he⟩ := find_key_isSome h
  have hk := find_key_some he
  refine ⟨e, hk.2, hk.1, ?_⟩
  have : c.items k = some e := he
  simp [Cache.Get, this, moveToFront, hk.1]

theorem Set_hit {c : Cache V} {k : String} (v : V) (h : k ∈ c.keys) :
    c.Set k v = { c with lru := ⟨k, v⟩ :: c.lru.eraseP (fun x => x.key == k) } := by
  obtain ⟨e, he⟩ := find_key_isSome h
  have hk := find_key_some he
  have : c.items k = some e := he
  simp [Cache.Set, this, moveToFront, hk.1]

theorem Set_miss {c : Cache V} {k : String} (v : V) (h : k ∉ c.keys) :
    c.Set k v =
      if ((c.lru.length + 1 : Nat) : Int) > c.capacity
      then { c with lru := (⟨k, v⟩ :: c.lru).dropLast }
      else { c with lru := ⟨k, v⟩ :: c.lru } := by
  have : c.items k = none := find_key_none.2 h
  simp only [Cache.Set, this, List.length_cons]
  split
  · simp only [Cache.removeOldest]
    rw [List.getLast?_eq_getLast _ (List.cons_ne_nil _ _)]
  · rfl

theorem run_append (c : Cache V) (ops : List (Op V)) (op : Op V) :
    c.run (ops ++ [op]) = (c.run ops).step op := by
  simp [Cache.run, List.foldl_append]

theorem touchLog_append (c : Cache V) (ops : List (Op V)) (op : Op V) :
    touchLog c (ops ++ [op]) = touchLog c ops ++ touched (c.run ops) op := by
  induction ops generalizing c with
  | nil => simp [touchLog, Cache.run]
  | cons a ops ih => simp [touchLog, Cache.run, ih, List.append_assoc]

/-- Touching a resident key, or setting a new one, keeps the resident keys equal
to the first `C` entries of the distinct recency order. -/
theorem take_recent_touch (C : Nat) (k : String) (log : List String) :
    (k :: ((recent log).take C).filter (fun x => x != k)).take C
      = (recent (k :: log)).take C := by
  cases C with
  | zero => simp
  | succ n =>
    simp only [recent, List.take_succ_cons]
    congr 1
    by_cases hk : k ∈ (recent log).take (n + 1)
    · rw [← take_filter_of_mem (recent_nodup log) hk]
      simp [List.take_take]
    · have h1 : ((recent log).take (n + 1)).filter (fun x => x != k)
          = (recent log).take (n + 1) := by
        rw [List.filter_eq_self]
        intro x hx
        simp
        rintro rfl
        exact hk hx
      have h2 : k ∉ (recent log).take n := fun h =>
        hk (List.take_subset_take_left _ (Nat.le_succ n) h)
      rw [h1, take_filter_of_not_mem h2, List.take_take]
      simp

theorem keys_moved {c : Cache V} {C : Nat} (hlen : c.lru.length ≤ C)
    (hnd : c.keys.Nodup) {k : String} {e e1 : entry V} (he : e ∈ c.lru) (hek : e.key = k)
    (he1 : e1.key = k) :
    (e1 :: c.lru.eraseP (fun x => x.key == k)).map (fun x => x.key)
      = (k :: c.keys.filter (fun x => x != k)).take C := by
  have hX : (e1 :: c.lru.eraseP (fun x => x.key == k)).map (fun x => x.key)
      = k :: c.keys.filter (fun x => x != k) := by
    rw [List.map_cons, he1, keys_eraseP hnd]; rfl
  rw [← hX, List.take_of_length_le]
  have h1 : (c.lru.eraseP (fun x => x.key == k)).length = c.lru.length - 1 :=
    List.length_eraseP_of_mem he (by simp [hek])
  have h2 : 0 < c.lru.length := List.length_pos_of_mem he
  simp only [List.length_map, List.length_cons, h1]
  omega

theorem Get_hit_keys {c : Cache V} {C : Nat} (hlen : c.lru.length ≤ C)
    (hnd : c.keys.Nodup) {k : String} (hk : k ∈ c.keys) :
    (c.Get k).2.capacity = c.capacity ∧ (c.Get k).1.2 = true ∧
    (c.Get k).2.keys = (k :: c.keys.filter (fun x => x != k)).take C := by
  obtain ⟨e, he, hek, hget⟩ := Get_hit hk
  rw [hget]
  exact ⟨rfl, rfl, keys_moved hlen hnd he hek hek⟩

theorem Set_keys {c : Cache V} {C : Nat} (hcap : c.capacity = C) (hlen : c.lru.length ≤ C)
    (hnd : c.keys.Nodup) (k : String) (v : V) :
    (c.Set k v).capacity = c.capacity ∧
    (c.Set k v).keys = (k :: c.keys.filter (fun x => x != k)).take C := by
  by_cases hk : k ∈ c.keys
  · obtain ⟨e, he, hek, -⟩ := Get_hit hk
    rw [Set_hit v hk]
    exact ⟨rfl, keys_moved hlen hnd he hek rfl⟩
  · have hf : c.keys.filter (fun x => x != k) = c.keys := by
      rw [List.filter_eq_self]
      intro x hx
      simp
      rintro rfl
      exact hk hx
    have hkl : c.keys.length = c.lru.length := by simp [Cache.keys]
    rw [Set_miss v hk, hf, hcap]
    split
    · rename_i h
      have hC : c.lru.length = C := by omega
      refine ⟨rfl, ?_⟩
      simp only [Cache.keys, List.map_dropLast, List.map_cons]
      rw [List.dropLast_eq_take]
      simp [hC]
    · rename_i h
      refine ⟨rfl, ?_⟩
      simp only [Cache.keys, List.map_cons]
      rw [List.take_of_length_le]
      simp only [List.length_cons, List.length_map]
      omega

/-- Resident keys after a run from `NewCache C`: the first `C` keys of the
distinct recency order of the touch log. -/
theorem run_keys (C : Nat) (ops : List (Op V)) :
    ((NewCache C : Cache V).run ops).capacity = C ∧
    ((NewCache C : Cache V).run ops).keys
      = (recent (touchLog (NewCache C : Cache V) ops).reverse).take C := by
  induction ops using List.reverseRecOn with
  | nil => simp [Cache.run, NewCache, touchLog, recent, Cache.keys]
  | append_singleton ops op ih =>
    obtain ⟨hcap, hkeys⟩ := ih
    rw [run_append, touchLog_append]
    generalize (NewCache C : Cache V).run ops = c at hcap hkeys
    generalize touchLog (NewCache C : Cache V) ops = log at hkeys
    have hnd : c.keys.Nodup := by
      rw [hkeys]; exact (recent_nodup _).sublist (List.take_sublist _ _)
    have hlen : c.lru.length ≤ C := by
      have : c.keys.length ≤ C := by rw [hkeys]; simp [List.length_take]
      simpa [Cache.keys] using this
    cases op with
    | get k =>
      by_cases hk : k ∈ c.keys
      · obtain ⟨h1, h2, h3⟩ := Get_hit_keys hlen hnd hk
        simp only [Cache.step, touched, h2, if_true, List.reverse_append,
          List.reverse_cons, List.reverse_nil, List.nil_append, List.singleton_append]
        refine ⟨h1.trans hcap, ?_⟩
        rw [h3, hkeys, take_recent_touch]
      · simp [Cache.step, touched, Get_miss hk, hcap, hkeys]
    | set k v =>
      obtain ⟨h1, h3⟩ := Set_keys hcap hlen hnd k v
      simp only [Cache.step, touched, List.reverse_append,
          List.reverse_cons, List.reverse_nil, List.nil_append, List.singleton_append]
      refine ⟨h1.trans hcap, ?_⟩
      rw [h3, hkeys, take_recent_touch]

theorem eraseP_eq_filter {l : List (entry V)} {k : String}
    (hn : (l.map (fun e => e.key)).Nodup) :
    l.eraseP (fun x => x.key == k) = l.filter (fun x => x.key != k) := by
  induction l with
  | nil => simp
  | cons a l ih =>
    rw [List.map_cons, List.nodup_cons] at hn
    by_cases hk : a.key = k
    · have hnot : k ∉ l.map (fun e => e.key) := hk ▸ hn.1
      have hf : l.filter (fun x => x.key != k) = l := by
        rw [List.filter_eq_self]
        intro x hx
        simp
        intro hxk
        exact hnot (List.mem_map.2 ⟨x, hx, hxk⟩)
      simp [List.eraseP_cons, hk, hf]
    · simp [List.eraseP_cons, hk, ih hn.2]

theorem perm_find_eraseP {l : List (entry V)} {k : String} {e : entry V}
    (h : l.find? (fun x => x.key == k) = some e) :
    (e :: l.eraseP (fun x => x.key == k)).Perm l := by
  induction l with
  | nil => simp at h
  | cons a l ih =>
    by_cases hk : a.key = k
    · rw [List.find?_cons_of_pos _ (by simpa using hk)] at h
      cases h
      simp [List.eraseP_cons, hk]
    · rw [List.find?_cons_of_neg _ (by simpa using hk)] at h
      have hb : (a.key == k) = false := by simpa using hk
      rw [List.eraseP_cons, hb, cond_false]
      exact (List.Perm.swap a e _).trans ((ih h).cons a)

theorem lastSet_append (ops : List (Op V)) (op : Op V) (k : String) :
    lastSet (ops ++ [op]) k
      = match op.setsKey k with
        | some v => some v
        | none => lastSet ops k := by
  simp only [lastSet, List.reverse_append, List.reverse_cons, List.reverse_nil,
    List.nil_append, List.singleton_append, List.findSome?_cons]
  cases op.setsKey k <;> rfl

/-- Reachable caches hold distinct keys, each with the payload of the most
recent `Set` on it. -/
theorem run_payloads (C : Int) (ops : List (Op V)) :
    ((NewCache C : Cache V).run ops).keys.Nodup ∧
    ∀ e ∈ ((NewCache C : Cache V).run ops).lru, lastSet ops e.key = some e.value := by
  induction ops using List.reverseRecOn with
  | nil => simp [Cache.run, NewCache, Cache.keys]
  | append_singleton ops op ih =>
    obtain ⟨hnd, hval⟩ := ih
    rw [run_append]
    generalize (NewCache C : Cache V).run ops = c at hnd hval
    have hmemE : ∀ (k : String) (e : entry V), e ∈ c.lru.eraseP (fun x => x.key == k) →
        e ∈ c.lru ∧ e.key ≠ k := by
      intro k e he
      rw [eraseP_eq_filter hnd, List.mem_filter] at he
      exact ⟨he.1, by simpa using he.2⟩
    have hndE : ∀ (k : String) (e1 : entry V), e1.key = k →
        ((e1 :: c.lru.eraseP (fun x => x.key == k)).map (fun e => e.key)).Nodup := by
      intro k e1 he1
      rw [List.map_cons, keys_eraseP hnd, List.nodup_cons]
      exact ⟨by simp [List.mem_filter, he1], hnd.filter _⟩
    cases op with
    | get k =>
      by_cases hk : k ∈ c.keys
      · obtain ⟨e, he, hek, hget⟩ := Get_hit hk
        simp only [Cache.step, hget]
        refine ⟨hndE k e hek, ?_⟩
        intro x hx
        rw [lastSet_append]
        simp only [Op.setsKey]
        rcases List.mem_cons.1 hx with rfl | hx
        · exact hval _ he
        · exact hval _ (hmemE k x hx).1
      · simp only [Cache.step, Get_miss hk]
        refine ⟨hnd, ?_⟩
        intro x hx
        rw [lastSet_append]
        exact hval x hx
    | set k v =>
      by_cases hk : k ∈ c.keys
      · simp only [Cache.step, Set_hit v hk]
        refine ⟨hndE k ⟨k, v⟩ rfl, ?_⟩
        intro x hx
        rw [lastSet_append]
        rcases List.mem_cons.1 hx with rfl | hx
        · simp [Op.setsKey]
        · have := hmemE k x hx
          have hne : ¬ k = x.key := fun h => this.2 h.symm
          simp only [Op.setsKey, hne, if_false]
          exact hval x this.1
      · have hpush : ((⟨k, v⟩ :: c.lru : List (entry V)).map (fun e => e.key)).Nodup := by
          rw [List.map_cons, List.nodup_cons]
          exact ⟨hk, hnd⟩
        have hin : ∀ x ∈ (⟨k, v⟩ :: c.lru : List (entry V)),
            lastSet (ops ++ [Op.set k v]) x.key = some x.value := by
          intro x hx
          rw [lastSet_append]
          rcases List.mem_cons.1 hx with rfl | hx
          · simp [Op.setsKey]
          · have hne : ¬ k = x.key := fun h =>
              hk (h ▸ List.mem_map.2 ⟨x, hx, rfl⟩)
            simp only [Op.setsKey, hne, if_false]
            exact hval x hx
        simp only [Cache.step, Set_miss v hk]
        split
        · refine ⟨?_, fun x hx => hin x (List.mem_of_mem_dropLast hx)⟩
          simp only [Cache.keys, List.map_dropLast]
          exact hpush.sublist (List.dropLast_sublist _)
        · exact ⟨hpush, hin⟩

theorem touchLog_sets (c : Cache V) (kvs : List (String × V)) :
    touchLog c (kvs.map (fun p => Op.set p.1 p.2)) = kvs.map Prod.fst := by
  induction kvs generalizing c with
  | nil => rfl
  | cons a kvs ih => simp [touchLog, touched, ih]

theorem recent_of_nodup {l : List String} (h : l.Nodup) : recent l = l := by
  induction l with
  | nil => rfl
  | cons a l ih =>
    rw [List.nodup_cons] at h
    simp only [recent, ih h.2]
    congr 1
    rw [List.filter_eq_self]
    intro x hx
    simp
    rintro rfl
    exact h.1 hx

end CacheLemmas

/-! ## Result cache: recency order, payloads and capacity -/

/-- C7: after any sequence of `Get` and `Set` calls on `NewCache(C)` the resident
keys, most recently used first, are the first `C` distinct keys of the touch log
read from its newest end, where a `Set` and a `Get` hit touch their key (for any
capacity `C ≥ 0`, so also for `C ≥ 1`). In particular `Set` on at least `C`
distinct keys leaves exactly the last `C` of them, and with capacity 2 the calls
`Set a`, `Set b`, `Set c` leave `a` absent and `b`, `c` present. -/
theorem lru_resident_keys {V : Type} (C : Nat) (ops : List (Op V)) :
    ((NewCache C : Cache V).run ops).keys
        = (recent (touchLog (NewCache C : Cache V) ops).reverse).take C ∧
    (∀ kvs : List (String × V), (kvs.map Prod.fst).Nodup → C ≤ kvs.length →
      ((NewCache C : Cache V).run (kvs.map (fun p => Op.set p.1 p.2))).keys
          = (kvs.map Prod.fst).reverse.take C ∧
      ((NewCache C : Cache V).run (kvs.map (fun p => Op.set p.1 p.2))).keys.length = C) ∧
    (let c := (NewCache 2 : Cache Nat).run [.set "a" 1, .set "b" 2, .set "c" 3]
     (c.Get "a").1 = (none, false) ∧ (c.Get "b").1 = (some 2, true) ∧
     (c.Get "c").1 = (some 3, true)) := by
  refine ⟨(run_keys C ops).2, ?_, by decide⟩
  intro kvs hnd hlen
  have h := (run_keys C (kvs.map (fun p => Op.set p.1 p.2))).2
  rw [touchLog_sets, recent_of_nodup (List.nodup_reverse.2 hnd)] at h
  refine ⟨h, ?_⟩
  rw [h, List.length_take, List.length_reverse, List.length_map]
  omega

/-- Witness of C7: three distinct keys set on a cache of capacity 2. -/
theorem lru_resident_keys_witness :
    ((NewCache 2 : Cache Nat).run [.set "a" 1, .set "b" 2, .set "c" 3]).keys = ["c", "b"] :=
  ((lru_resident_keys 2 ([] : List (Op Nat))).2.1 [("a", 1), ("b", 2), ("c", 3)]
    (by decide) (by decide)).1

/-- C8: in every cache reached from `NewCache(C)`, `Get(k)` on a resident key
returns `(p, true)` with `p` the payload of the most recent `Set(k, p)`, keeps
every entry with its payload (the list afterwards is a permutation of the list
before), puts `k` at the front and leaves the others in their order; `Get(k)` on
a key that is not resident returns `(nil, false)` and the same cache. -/
theorem get_resident_or_absent {V : Type} (C : Int) (ops : List (Op V)) (k : String) :
    (k ∈ ((NewCache C : Cache V).run ops).keys →
      ∃ p, lastSet ops k = some p ∧
        (((NewCache C : Cache V).run ops).Get k).1 = (some p, true) ∧
        (((NewCache C : Cache V).run ops).Get k).2.capacity
          = ((NewCache C : Cache V).run ops).capacity ∧
        (((NewCache C : Cache V).run ops).Get k).2.lru.Perm
          ((NewCache C : Cache V).run ops).lru ∧
        (((NewCache C : Cache V).run ops).Get k).2.lru
          = ⟨k, p⟩ :: ((NewCache C : Cache V).run ops).lru.filter (fun e => e.key != k)) ∧
    (k ∉ ((NewCache C : Cache V).run ops).keys →
      ((NewCache C : Cache V).run ops).Get k = ((none, false), (NewCache C : Cache V).run ops)) := by
  obtain ⟨hnd, hval⟩ := run_payloads C ops
  generalize (NewCache C : Cache V).run ops = c at hnd hval
  refine ⟨fun hk => ?_, fun hk => Get_miss hk⟩
  obtain ⟨e, hfind⟩ := find_key_isSome hk
  have hk2 := find_key_some hfind
  have hitems : c.items k = some e := hfind
  have he : e = ⟨k, e.value⟩ := by
    cases e with
    | mk ek ev => simp at hk2; simp [hk2.1]
  refine ⟨e.value, ?_, ?_, ?_, ?_, ?_⟩
  · rw [← hk2.1]; exact hval e hk2.2
  · simp [Cache.Get, hitems]
  · simp [Cache.Get, hitems]
  · simp only [Cache.Get, hitems, moveToFront, hk2.1]
    exact perm_find_eraseP hfind
  · simp only [Cache.Get, hitems, moveToFront, hk2.1]
    rw [eraseP_eq_filter hnd, ← he]

/-- Witness of C8: `b` is resident after `Set a`, `Set b`, `Get a`, `Set b`. -/
theorem get_resident_or_absent_witness :
    ∃ p, lastSet [Op.set "a" 1, .set "b" 2, .get "a", .set "b" 5] "b" = some p ∧
      (((NewCache 2 : Cache Nat).run [.set "a" 1, .set "b" 2, .get "a", .set "b" 5]).Get "b").1
        = (some p, true) :=
  let ⟨p, h1, h2, _⟩ :=
    (get_resident_or_absent 2 [Op.set "a" 1, .set "b" 2, .get "a", .set "b" 5] "b").1
      (by decide)
  ⟨p, h1, h2⟩

/-- C9: after any sequence of `Get` and `Set` calls on `NewCache(C)`, `C ≥ 0`, at
most `C` entries are resident, and a further `Set(k, v)` removes at most one
entry: on a resident key it keeps every other entry and replaces the payload of
`k`, moved to the front; on a new key with `C` entries resident it pushes the
entry and removes exactly the back of the list, the least recently used one; on
a new key with fewer than `C` entries it only pushes the entry. -/
theorem set_evicts_at_most_one {V : Type} (C : Nat) (ops : List (Op V)) :
    ((NewCache C : Cache V).run ops).lru.length ≤ C ∧
    ∀ (k : String) (v : V),
      (k ∈ ((NewCache C : Cache V).run ops).keys →
        (((NewCache C : Cache V).run ops).Set k v).lru
          = ⟨k, v⟩ :: ((NewCache C : Cache V).run ops).lru.filter (fun e => e.key != k) ∧
        (((NewCache C : Cache V).run ops).Set k v).lru.length
          = ((NewCache C : Cache V).run ops).lru.length) ∧
      (k ∉ ((NewCache C : Cache V).run ops).keys →
        ((NewCache C : Cache V).run ops).lru.length = C →
        (((NewCache C : Cache V).run ops).Set k v).lru
          = (⟨k, v⟩ :: ((NewCache C : Cache V).run ops).lru).dropLast ∧
        (((NewCache C : Cache V).run ops).Set k v).lru.length = C) ∧
      (k ∉ ((NewCache C : Cache V).run ops).keys →
        ((NewCache C : Cache V).run ops).lru.length < C →
        (((NewCache C : Cache V).run ops).Set k v).lru
          = ⟨k, v⟩ :: ((NewCache C : Cache V).run ops).lru) := by
  obtain ⟨hcap, hkeys⟩ := run_keys (V := V) C ops
  obtain ⟨hnd, -⟩ := run_payloads (V := V) C ops
  generalize (NewCache C : Cache V).run ops = c at hcap hkeys hnd
  have hlen : c.lru.length ≤ C := by
    have : c.keys.length ≤ C := by rw [hkeys]; simp [List.length_take]
    simpa [Cache.keys] using this
  refine ⟨hlen, fun k v => ⟨fun hk => ?_, fun hk hC => ?_, fun hk hC => ?_⟩⟩
  · obtain ⟨e, he, hek, -⟩ := Get_hit hk
    rw [Set_hit v hk]
    refine ⟨by rw [eraseP_eq_filter hnd], ?_⟩
    have h1 : (c.lru.eraseP (fun x => x.key == k)).length = c.lru.length - 1 :=
      List.length_eraseP_of_mem he (by simp [hek])
    have h2 : 0 < c.lru.length := List.length_pos_of_mem he
    simp only [List.length_cons, h1]
    omega
  · rw [Set_miss v hk, hcap, if_pos (by omega)]
    refine ⟨rfl, ?_⟩
    simp [hC]
  · rw [Set_miss v hk, hcap, if_neg (by omega)]

/-- Witness of C9: a full cache of capacity 2 receives a new key. -/
theorem set_evicts_at_most_one_witness :
    (((NewCache 2 : Cache Nat).run [.set "a" 1, .set "b" 2]).Set "c" 3).lru
      = [⟨"c", 3⟩, ⟨"b", 2⟩] :=
  (((set_evicts_at_most_one 2 [Op.set "a" 1, .set "b" 2]).2 "c" 3).2.1
    (by decide) (by decide)).1

/-! ## Ordered index: the recursion budget suffices -/

theorem Children_mk (l : Bool) (ks : List Item) (cs : List Node) :
    (Node.mk l ks cs).Children = cs := rfl

theorem height_eq (node : Node) : node.height = heightList node.Children + 1 := by
  cases node
  simp [Node.height, Node.Children]

theorem heightList_le_iff (cs : List Node) (h : Nat) :
    heightList cs ≤ h ↔ ∀ c ∈ cs, c.height ≤ h := by
  induction cs with
  | nil => simp [heightList]
  | cons c cs ih => simp [heightList, ih]

theorem idx_mem {α : Type} {xs : List α} {i : Nat} {x : α} (h : idx xs i = .ok x) :
    x ∈ xs := by
  unfold idx at h
  split at h
  · rename_i y hy
    cases h
    exact List.getElem?_mem hy
  · cases h

theorem bind_ne_fuel {α β : Type} (x : Except Fault α) (f : α → Except Fault β)
    (hx : x ≠ .error .fuel) (hf : ∀ a, x = .ok a → f a ≠ .error .fuel) :
    (x >>= f) ≠ .error .fuel := by
  cases x with
  | error e =>
    intro h
    simp only [bind, Except.bind] at h
    cases h
    exact hx rfl
  | ok a => exact hf a rfl

theorem asInt_ne_fuel (v : Val) : v.asInt ≠ .error .fuel := by
  cases v <;> simp [Val.asInt]

theorem idx_ne_fuel {α : Type} (xs : List α) (i : Nat) : idx xs i ≠ .error .fuel := by
  unfold idx
  split <;> simp

theorem sliceTo_ne_fuel {α : Type} (xs : List α) (n : Nat) :
    sliceTo xs n ≠ .error .fuel := by
  unfold sliceTo
  split <;> simp

theorem sliceFrom_ne_fuel {α : Type} (xs : List α) (n : Nat) :
    sliceFrom xs n ≠ .error .fuel := by
  unfold sliceFrom
  split <;> simp

theorem scanLoop_ne_fuel (key : Val) (keys : List Item) (i : Nat) :
    scanLoop key keys i ≠ .error .fuel := by
  induction keys generalizing i with
  | nil => simp [scanLoop]
  | cons it rest ih =>
    unfold scanLoop
    refine bind_ne_fuel _ _ (asInt_ne_fuel _) fun k _ => ?_
    refine bind_ne_fuel _ _ (asInt_ne_fuel _) fun ki _ => ?_
    split
    · exact ih _
    · simp

theorem shiftLoop_ne_fuel (key : Val) (keys : List Item) (j : Nat) :
    shiftLoop key keys j ≠ .error .fuel := by
  induction j generalizing keys with
  | zero => simp [shiftLoop]
  | succ i ih =>
    unfold shiftLoop
    refine bind_ne_fuel _ _ (asInt_ne_fuel _) fun k _ => ?_
    refine bind_ne_fuel _ _ (idx_ne_fuel _ _) fun it _ => ?_
    refine bind_ne_fuel _ _ (asInt_ne_fuel _) fun ki _ => ?_
    split
    · exact ih _
    · simp

theorem descendLoop_ne_fuel (key : Val) (keys : List Item) (j : Nat) :
    descendLoop key keys j ≠ .error .fuel := by
  induction j with
  | zero => simp [descendLoop]
  | succ i ih =>
    unfold descendLoop
    refine bind_ne_fuel _ _ (asInt_ne_fuel _) fun k _ => ?_
    refine bind_ne_fuel _ _ (idx_ne_fuel _ _) fun it _ => ?_
    refine bind_ne_fuel _ _ (asInt_ne_fuel _) fun ki _ => ?_
    split
    · exact ih
    · simp

/-- `searchNode` never exhausts a budget of at least the height of the node. -/
theorem searchNode_ne_fuel (n : Nat) (node : Node) (key : Val) (h : node.height ≤ n) :
    searchNode n node key ≠ .error .fuel := by
  induction n generalizing node with
  | zero =>
    rw [height_eq] at h
    omega
  | succ m ih =>
    unfold searchNode
    refine bind_ne_fuel _ _ (scanLoop_ne_fuel _ _ _) fun i _ => ?_
    refine bind_ne_fuel _ _ ?_ fun hit _ => ?_
    · split
      · refine bind_ne_fuel _ _ (asInt_ne_fuel _) fun k _ => ?_
        refine bind_ne_fuel _ _ (asInt_ne_fuel _) fun ki _ => ?_
        simp [pure, Except.pure]
      · simp [pure, Except.pure]
    · split
      · simp
      · split
        · simp
        · refine bind_ne_fuel _ _ (idx_ne_fuel _ _) fun c hc => ?_
          apply ih
          have h1 := (heightList_le_iff node.Children _).1 (Nat.le_refl _) c (idx_mem hc)
          rw [height_eq] at h
          omega

/-- `Search` never exhausts its budget. -/
theorem Search_ne_fuel (t : BTree) (key : Val) : t.Search key ≠ .error .fuel :=
  searchNode_ne_fuel _ _ _ (Nat.le_succ _)

theorem sliceTo_ok {α : Type} {xs ys : List α} {n : Nat} (h : sliceTo xs n = .ok ys) :
    ys = xs.take n := by
  unfold sliceTo at h
  split at h
  · cases h; rfl
  · cases h

theorem sliceFrom_ok {α : Type} {xs ys : List α} {n : Nat} (h : sliceFrom xs n = .ok ys) :
    ys = xs.drop n := by
  unfold sliceFrom at h
  split at h
  · cases h; rfl
  · cases h

theorem splitChild_ne_fuel (parent : Node) (i : Nat) :
    splitChild parent i ≠ .error .fuel := by
  unfold splitChild
  refine bind_ne_fuel _ _ (idx_ne_fuel _ _) fun child _ => ?_
  refine bind_ne_fuel _ _ (sliceTo_ne_fuel _ _) fun front _ => ?_
  refine bind_ne_fuel _ _ (sliceFrom_ne_fuel _ _) fun back _ => ?_
  refine bind_ne_fuel _ _ (sliceTo_ne_fuel _ _) fun keysFront _ => ?_
  refine bind_ne_fuel _ _ (idx_ne_fuel _ _) fun median _ => ?_
  refine bind_ne_fuel _ _ (sliceFrom_ne_fuel _ _) fun keysBack _ => ?_
  refine bind_ne_fuel _ _ (sliceFrom_ne_fuel _ _) fun upper _ => ?_
  refine bind_ne_fuel _ _ (sliceTo_ne_fuel _ _) fun lower _ => ?_
  split
  · refine bind_ne_fuel _ _ (sliceFrom_ne_fuel _ _) fun upperCh _ => ?_
    refine bind_ne_fuel _ _ (sliceTo_ne_fuel _ _) fun lowerCh _ => ?_
    simp
  · simp

/-- A split does not make the children of the parent higher. -/
theorem splitChild_height (parent p1 : Node) (i : Nat) (h : splitChild parent i = .ok p1) :
    ∀ c ∈ p1.Children, c.height ≤ heightList parent.Children := by
  unfold splitChild at h
  simp only [bind, Except.bind] at h
  split at h
  · cases h
  rename_i child hchild
  split at h
  · cases h
  rename_i front hfront
  split at h
  · cases h
  rename_i back hback
  split at h
  · cases h
  split at h
  · cases h
  split at h
  · cases h
  split at h
  · cases h
  split at h
  · cases h
  have hpar := (heightList_le_iff parent.Children _).1 (Nat.le_refl _)
  have hch : child.height ≤ heightList parent.Children := hpar child (idx_mem hchild)
  have hcc := (heightList_le_iff child.Children _).1 (Nat.le_refl _)
  rw [height_eq] at hch
  have hfrontm : ∀ c ∈ front, c.height ≤ heightList parent.Children := fun c hc =>
    hpar c (by rw [sliceTo_ok hfront] at hc; exact List.mem_of_mem_take hc)
  have hbackm : ∀ c ∈ back, c.height ≤ heightList parent.Children := fun c hc =>
    hpar c (by rw [sliceFrom_ok hback] at hc; exact List.mem_of_mem_drop hc)
  have hset : ∀ (c1 : Node), c1.height ≤ heightList parent.Children →
      ∀ c ∈ front.set i c1, c.height ≤ heightList parent.Children := by
    intro c1 hc1 c hc
    rcases List.mem_or_eq_of_mem_set hc with hc | rfl
    · exact hfrontm c hc
    · exact hc1
  split at h
  · split at h
    · cases h
    rename_i upperCh hup
    split at h
    · cases h
    rename_i lowerCh hlow
    simp only [Except.ok.injEq] at h
    subst h
    intro c hc
    simp only [Children_mk, List.mem_append, List.mem_singleton] at hc
    rcases hc with hc | rfl | hc
    · refine hset _ ?_ c hc
      rw [height_eq]
      simp only [Children_mk]
      have : heightList lowerCh ≤ heightList child.Children := by
        rw [heightList_le_iff]
        intro x hx
        rw [sliceTo_ok hlow] at hx
        exact hcc x (List.mem_of_mem_take hx)
      omega
    · rw [height_eq]
      simp only [Children_mk, List.nil_append]
      have : heightList upperCh ≤ heightList child.Children := by
        rw [heightList_le_iff]
        intro x hx
        rw [sliceFrom_ok hup] at hx
        exact hcc x (List.mem_of_mem_drop hx)
      omega
    · exact hbackm c hc
  · simp only [Except.ok.injEq] at h
    subst h
    intro c hc
    simp only [Children_mk, List.mem_append, List.mem_singleton] at hc
    rcases hc with hc | rfl | hc
    · refine hset _ ?_ c hc
      rw [height_eq]
      simp only [Children_mk]
      omega
    · rw [height_eq]
      simp only [Children_mk, heightList]
      omega
    · exact hbackm c hc

/-- `insertNonFull` never exhausts a budget of at least the height of the node. -/
theorem insertNonFull_ne_fuel (n : Nat) (node : Node) (key value : Val)
    (h : node.height ≤ n) : insertNonFull n node key value ≠ .error .fuel := by
  induction n generalizing node with
  | zero =>
    rw [height_eq] at h
    omega
  | succ m ih =>
    rw [height_eq] at h
    have hpar := (heightList_le_iff node.Children _).1 (Nat.le_refl _)
    unfold insertNonFull
    split
    · refine bind_ne_fuel _ _ (shiftLoop_ne_fuel _ _ _) fun r _ => ?_
      split
      split <;> simp
    · refine bind_ne_fuel _ _ (descendLoop_ne_fuel _ _ _) fun i _ => ?_
      refine bind_ne_fuel _ _ (idx_ne_fuel _ _) fun c hc => ?_
      split
      · refine bind_ne_fuel _ _ (splitChild_ne_fuel _ _) fun node1 hsplit => ?_
        refine bind_ne_fuel _ _ (asInt_ne_fuel _) fun k _ => ?_
        refine bind_ne_fuel _ _ (idx_ne_fuel _ _) fun it _ => ?_
        refine bind_ne_fuel _ _ (asInt_ne_fuel _) fun ki _ => ?_
        refine bind_ne_fuel _ _ (idx_ne_fuel _ _) fun c1 hc1 => ?_
        have h1 := splitChild_height node node1 i hsplit c1 (idx_mem hc1)
        refine bind_ne_fuel _ _ (ih c1 (by omega)) fun c2 _ => ?_
        simp
      · have h1 := hpar c (idx_mem hc)
        refine bind_ne_fuel _ _ (ih c (by omega)) fun c2 _ => ?_
        simp

/-- `Insert` never exhausts its budget. -/
theorem Insert_ne_fuel (t : BTree) (key value : Val) :
    t.Insert key value ≠ .error .fuel := by
  unfold BTree.Insert
  simp only
  split
  · refine bind_ne_fuel _ _ (splitChild_ne_fuel _ _) fun newRoot _ => ?_
    refine bind_ne_fuel _ _ (insertNonFull_ne_fuel _ _ _ _ (Nat.le_succ _)) fun r _ => ?_
    simp
  · refine bind_ne_fuel _ _ (insertNonFull_ne_fuel _ _ _ _ (Nat.le_succ _)) fun r _ => ?_
    simp

/-! ## Ordered index: behaviour after a split -/

/-- C1: on the eight distinct keys `1..8` inserted with payloads `p1..p8` the
program builds `tree8`, whose right leaf starts with three zero items, and
`Search` on the inserted key `8` panics on the type assertion of a nil key
instead of returning `p8`. -/
theorem search_inserted_key_after_split :
    NewBTree.insertAll pairs8 = .ok tree8 ∧
    (8, Val.str "p8") ∈ pairs8 ∧
    tree8.Search (.int 8) = .error .typeAssertion :=
  ⟨rfl, by decide, rfl⟩

/-- C10: on the tree built from the keys `1..8`, `Search` on the key `9`, which
was never inserted, panics on the type assertion of a nil key instead of
returning nil. -/
theorem search_absent_key_after_split :
    NewBTree.insertAll pairs8 = .ok tree8 ∧
    (9 : Int) ∉ pairs8.map Prod.fst ∧
    tree8.Search (.int 9) = .error .typeAssertion :=
  ⟨rfl, by decide, rfl⟩

/-! ## Table engine: evaluations -/

/-- C2: `blobTable` has no ordered index and an empty result cache, its only row
stores the bytes `[1]` in `data`, and `Select` with the predicate
`data = [1]` panics on the comparison of two byte slices instead of returning
that row. -/
theorem select_blob_predicate (fmtFloat : Nat → String) :
    blobTable.BTreeIndexes = [] ∧
    blobTable.QueryCache = some (NewCache 1000) ∧
    blobTable.Rows = [[("data", .bytes [1])]] ∧
    blobTable.Select fmtFloat [("data", .bytes [1])] = .error .uncomparable :=
  ⟨rfl, rfl, rfl, rfl⟩

/-- C3: on `usersTable` the predicate `id = 1` selects the row of alice by the
full scan; after `createBTreeIndex("id")` the same `Select` returns the error
"unexpected type for row indices", because the payload the index stores is an
`int` and `Select` asserts `[]int`. -/
theorem select_with_ordered_index (fmtFloat : Nat → String) :
    usersTable.Select fmtFloat [("id", .int 1)] = .ok (.ok [rowAlice], usersTable) ∧
    usersTable.createBTreeIndex "id" = .ok usersIndexed ∧
    usersIndexed.Select fmtFloat [("id", .int 1)]
      = .ok (.error .unexpectedRowIndices, usersIndexed) :=
  ⟨rfl, rfl, rfl⟩

/-- C4: `blobTable` declares `data` as a unique `BLOB` column and holds one row
with the bytes `[1]`; inserting the bytes `[2]`, a present, non-null value of the
declared type that no row holds, panics in `isDuplicate` on the comparison of two
byte slices instead of returning no error. -/
theorem insert_unique_blob :
    applyDefaults blobTable.Columns [("data", .bytes [2])] = [("data", .bytes [2])] ∧
    isValidType (.bytes [2]) TypeBlob = true ∧
    blobTable.Insert [("data", .bytes [2])] = .error .uncomparable :=
  ⟨rfl, rfl, rfl⟩

/-! ## Table engine: `Insert` -/

/-- The three ways `Insert` returns: a constraint error, a type error, or success
with the row appended and the hash indexes updated. -/
theorem Insert_cases (t : Table) (values : Row) (r : Option DbError) (t1 : Table)
    (h : t.Insert values = .ok (r, t1)) :
    (r ≠ none ∧ t1 = t) ∨
    (r = none ∧ ∃ indexes,
      updateIndexes (applyDefaults t.Columns values) t.Rows.length t.Indexes = .ok indexes ∧
      t1 = { t with Rows := t.Rows ++ [applyDefaults t.Columns values], Indexes := indexes }) := by
  unfold Table.Insert at h
  simp only [bind, Except.bind] at h
  split at h
  · cases h
  · rename_i o ho
    cases o with
    | some e =>
      simp only [Except.ok.injEq, Prod.mk.injEq] at h
      exact Or.inl ⟨by rw [← h.1]; simp, h.2.symm⟩
    | none =>
      simp only at h
      cases hty : checkTypes (applyDefaults t.Columns values) t.Columns with
      | some e =>
        rw [hty] at h
        simp only [Except.ok.injEq, Prod.mk.injEq] at h
        exact Or.inl ⟨by rw [← h.1]; simp, h.2.symm⟩
      | none =>
        rw [hty] at h
        simp only at h
        split at h
        · cases h
        · rename_i indexes hidx
          simp only [Except.ok.injEq, Prod.mk.injEq] at h
          exact Or.inr ⟨h.1.symm, indexes, hidx, h.2.symm⟩

theorem isDuplicate_ok (c : String) (v : Val) (rows : List Row) (b : Bool)
    (h : isDuplicate c v rows = .ok b) :
    b = true ↔ ∃ row ∈ rows, (row.at c).goEq v = .ok true := by
  induction rows with
  | nil =>
    simp only [isDuplicate, Except.ok.injEq] at h
    simp [← h]
  | cons row rows ih =>
    simp only [isDuplicate, bind, Except.bind] at h
    cases hg : (row.at c).goEq v with
    | error f => rw [hg] at h; cases h
    | ok g =>
      rw [hg] at h
      cases g with
      | true =>
        simp only [if_true, Except.ok.injEq] at h
        simp [← h, hg]
      | false =>
        simp only [Bool.false_eq_true, if_false] at h
        rw [ih h]
        simp [hg]

theorem isValidType_nil (ty : ColumnType) : isValidType .nil ty = false := by
  unfold isValidType
  split_ifs <;> rfl

/-- What one round of the constraint loop returns, when it returns. -/
theorem checkColumn_ok (rows : List Row) (values : Row) (col : Column) (r : Option DbError)
    (h : checkColumn rows values col = .ok r) :
    (r ≠ none →
      (¬ ∃ v, values.lookup col.Name = some v ∧ isValidType v col.ColType = true) ∨
      ((col.Unique = true ∨ col.PrimaryKey = true) ∧
        ∃ row ∈ rows, (row.at col.Name).goEq (values.at col.Name) = .ok true)) ∧
    (r = none → (col.Unique = true ∨ col.PrimaryKey = true) →
      ¬ ∃ row ∈ rows, (row.at col.Name).goEq (values.at col.Name) = .ok true) := by
  have hnil : values.at col.Name = .nil →
      ¬ ∃ v, values.lookup col.Name = some v ∧ isValidType v col.ColType = true := by
    rintro hn ⟨v, hv, hty⟩
    simp only [Row.at, hv, Option.getD_some] at hn
    rw [hn, isValidType_nil] at hty
    cases hty
  have habs : (values.lookup col.Name).isSome = false →
      ¬ ∃ v, values.lookup col.Name = some v ∧ isValidType v col.ColType = true := by
    rintro hn ⟨v, hv, -⟩
    rw [hv] at hn
    cases hn
  unfold checkColumn at h
  simp only [bind, Except.bind] at h
  split at h
  · rename_i hnn
    simp only [Except.ok.injEq] at h
    subst h
    refine ⟨fun _ => Or.inl ?_, fun hr => by cases hr⟩
    simp only [Bool.and_eq_true, Bool.or_eq_true, Bool.not_eq_true', beq_iff_eq] at hnn
    rcases hnn.2 with h1 | h1
    · exact habs h1
    · exact hnil h1
  · cases hU : col.Unique with
    | true =>
      simp only [hU, if_true] at h
      cases hd : isDuplicate col.Name (values.at col.Name) rows with
      | error f => rw [hd] at h; cases h
      | ok d =>
        rw [hd] at h
        have hdup := isDuplicate_ok _ _ _ _ hd
        cases d with
        | true =>
          simp only [if_true, Except.ok.injEq] at h
          subst h
          exact ⟨fun _ => Or.inr ⟨Or.inl rfl, hdup.1 rfl⟩, fun hr => by cases hr⟩
        | false =>
          have hno : ¬ ∃ row ∈ rows,
              (row.at col.Name).goEq (values.at col.Name) = .ok true := fun hex => by
            have := hdup.2 hex
            cases this
          simp only [Bool.false_eq_true, if_false] at h
          split at h
          · split at h
            · rename_i hpk hvn
              simp only [Except.ok.injEq] at h
              subst h
              exact ⟨fun _ => Or.inl (hnil (by simpa using hvn)), fun hr => by cases hr⟩
            · simp only [hd, Bool.false_eq_true, if_false, Except.ok.injEq] at h
              subst h
              exact ⟨fun hr => absurd rfl hr, fun _ _ => hno⟩
          · simp only [Except.ok.injEq] at h
            subst h
            exact ⟨fun hr => absurd rfl hr, fun _ _ => hno⟩
    | false =>
      simp only [hU, Bool.false_eq_true, if_false] at h
      split at h
      · rename_i hpk
        split at h
        · rename_i hvn
          simp only [Except.ok.injEq] at h
          subst h
          exact ⟨fun _ => Or.inl (hnil (by simpa using hvn)), fun hr => by cases hr⟩
        · cases hd : isDuplicate col.Name (values.at col.Name) rows with
          | error f => rw [hd] at h; cases h
          | ok d =>
            rw [hd] at h
            have hdup := isDuplicate_ok _ _ _ _ hd
            cases d with
            | true =>
              simp only [if_true, Except.ok.injEq] at h
              subst h
              exact ⟨fun _ => Or.inr ⟨Or.inr hpk, hdup.1 rfl⟩, fun hr => by cases hr⟩
            | false =>
              simp only [Bool.false_eq_true, if_false, Except.ok.injEq] at h
              subst h
              refine ⟨fun hr => absurd rfl hr, fun _ _ hex => ?_⟩
              have := hdup.2 hex
              cases this
      · rename_i hpk
        simp only [Except.ok.injEq] at h
        subst h
        refine ⟨fun hr => absurd rfl hr, fun _ hup => ?_⟩
        rcases hup with h1 | h1
        · cases h1
        · exact absurd h1 hpk

/-- What the constraint loop returns, when it returns. -/
theorem checkConstraints_ok (rows : List Row) (values : Row) (cols : List Column)
    (r : Option DbError) (h : checkConstraints rows values cols = .ok r) :
    (r ≠ none → ∃ col ∈ cols,
      (¬ ∃ v, values.lookup col.Name = some v ∧ isValidType v col.ColType = true) ∨
      ((col.Unique = true ∨ col.PrimaryKey = true) ∧
        ∃ row ∈ rows, (row.at col.Name).goEq (values.at col.Name) = .ok true)) ∧
    (r = none → ∀ col ∈ cols, (col.Unique = true ∨ col.PrimaryKey = true) →
      ¬ ∃ row ∈ rows, (row.at col.Name).goEq (values.at col.Name) = .ok true) := by
  induction cols with
  | nil =>
    simp only [checkConstraints, Except.ok.injEq] at h
    subst h
    exact ⟨fun hr => absurd rfl hr, fun _ col hc => by cases hc⟩
  | cons col cols ih =>
    simp only [checkConstraints, bind, Except.bind] at h
    cases hcol : checkColumn rows values col with
    | error f => rw [hcol] at h; cases h
    | ok rc =>
      rw [hcol] at h
      have hc := checkColumn_ok rows values col rc hcol
      cases rc with
      | some e =>
        simp only [Except.ok.injEq] at h
        subst h
        refine ⟨fun _ => ⟨col, List.mem_cons_self _ _, hc.1 (by simp)⟩, fun hr => by cases hr⟩
      | none =>
        simp only at h
        obtain ⟨ih1, ih2⟩ := ih h
        refine ⟨fun hr => ?_, fun hr c hcm => ?_⟩
        · obtain ⟨c, hcm, hb⟩ := ih1 hr
          exact ⟨c, List.mem_cons_of_mem _ hcm, hb⟩
        · rcases List.mem_cons.1 hcm with rfl | hcm
          · exact hc.2 rfl
          · exact ih2 hr c hcm

/-- The type loop returns an error exactly when some column holds no value of
its declared type. -/
theorem checkTypes_ne_none (values : Row) (cols : List Column) :
    checkTypes values cols ≠ none ↔
      ∃ col ∈ cols,
        ¬ ∃ v, values.lookup col.Name = some v ∧ isValidType v col.ColType = true := by
  induction cols with
  | nil => simp [checkTypes]
  | cons col cols ih =>
    unfold checkTypes
    cases hv : values.lookup col.Name with
    | none => simp [hv]
    | some val =>
      cases hty : isValidType val col.ColType with
      | false => simp [hv, hty]
      | true => simp [hv, hty, ih]

/-- Whenever `Insert` returns, it returns an error exactly when, after the
defaults are filled in, some declared column holds no value of its declared type
(no value, a nil value or a value of another type), or the value of some unique or
primary-key column equals what an existing row reads in that column. -/
theorem Insert_error_iff (t : Table) (values : Row) (r : Option DbError) (t1 : Table)
    (h : t.Insert values = .ok (r, t1)) :
    r ≠ none ↔
      (∃ col ∈ t.Columns, ¬ ∃ v,
        (applyDefaults t.Columns values).lookup col.Name = some v ∧
          isValidType v col.ColType = true) ∨
      (∃ col ∈ t.Columns, (col.Unique = true ∨ col.PrimaryKey = true) ∧
        ∃ row ∈ t.Rows,
          (row.at col.Name).goEq ((applyDefaults t.Columns values).at col.Name) = .ok true) := by
  unfold Table.Insert at h
  simp only [bind, Except.bind] at h
  cases hcc : checkConstraints t.Rows (applyDefaults t.Columns values) t.Columns with
  | error f => rw [hcc] at h; cases h
  | ok rc =>
    rw [hcc] at h
    obtain ⟨hc1, hc2⟩ := checkConstraints_ok _ _ _ _ hcc
    have hty := checkTypes_ne_none (applyDefaults t.Columns values) t.Columns
    cases rc with
    | some e =>
      simp only [Except.ok.injEq, Prod.mk.injEq] at h
      rw [← h.1]
      refine ⟨fun _ => ?_, fun _ => by simp⟩
      obtain ⟨col, hcm, hb⟩ := hc1 (by simp)
      rcases hb with hb | hb
      · exact Or.inl ⟨col, hcm, hb⟩
      · exact Or.inr ⟨col, hcm, hb⟩
    | none =>
      simp only at h
      cases hct : checkTypes (applyDefaults t.Columns values) t.Columns with
      | some e =>
        rw [hct] at h
        simp only [Except.ok.injEq, Prod.mk.injEq] at h
        rw [← h.1]
        refine ⟨fun _ => Or.inl (hty.1 (by simp [hct])), fun _ => by simp⟩
      | none =>
        rw [hct] at h
        simp only at h
        split at h
        · cases h
        · simp only [Except.ok.injEq, Prod.mk.injEq] at h
          rw [← h.1]
          refine ⟨fun hr => absurd rfl hr, fun hor => ?_⟩
          rcases hor with hbad | ⟨col, hcm, hup, hdup⟩
          · exact absurd hct (hty.2 hbad)
          · exact absurd hdup (hc2 rfl col hcm hup)

/-! ## Table engine: `Insert` on shared maps -/

/-- The write of the defaults changes no stored row, when the map passed is not a
stored row or already holds the defaults. -/
theorem fill_rows (t : HeapTable) (values : Nat)
    (hkeep : values ∈ t.Rows → applyDefaults t.Columns (t.maps values) = t.maps values) :
    t.Rows.map (Function.update t.maps values (applyDefaults t.Columns (t.maps values)))
      = t.Rows.map t.maps := by
  apply List.map_congr_left
  intro a ha
  by_cases h : a = values
  · subst h
    rw [Function.update_same]
    exact hkeep ha
  · rw [Function.update_noteq h]

/-- The index loop leaves an index map alone that is not registered. -/
theorem updateIndexRefs_frame (values : Row) (n : Nat) (l : List (String × Nat))
    (imaps im : Nat → HashIndex) (a : Nat)
    (h : updateIndexRefs values n imaps l = .ok im) (ha : a ∉ l.map Prod.snd) :
    im a = imaps a := by
  induction l generalizing imaps with
  | nil =>
    simp only [updateIndexRefs, Except.ok.injEq] at h
    rw [← h]
  | cons p l ih =>
    obtain ⟨k, a1⟩ := p
    simp only [updateIndexRefs, bind, Except.bind] at h
    simp only [List.map_cons, List.mem_cons, not_or] at ha
    cases hg : (imaps a1).get (values.at k) with
    | error e => rw [hg] at h; cases h
    | ok bucket =>
      rw [hg] at h
      simp only at h
      cases hs : (imaps a1).set (values.at k) (bucket ++ [n]) with
      | error e => rw [hs] at h; cases h
      | ok ix =>
        rw [hs] at h
        simp only at h
        rw [ih _ h ha.2, Function.update_noteq ha.1]

/-- The index loop on index map objects that are registered once each is the
index loop on the index maps as values. -/
theorem updateIndexRefs_deref (values : Row) (n : Nat) (l : List (String × Nat))
    (imaps : Nat → HashIndex) (hnd : (l.map Prod.snd).Nodup) :
    (updateIndexRefs values n imaps l).map (fun im => l.map (fun p => (p.1, im p.2)))
      = updateIndexes values n (l.map (fun p => (p.1, imaps p.2))) := by
  induction l generalizing imaps with
  | nil => rfl
  | cons p l ih =>
    obtain ⟨k, a⟩ := p
    rw [List.map_cons, List.nodup_cons] at hnd
    simp only [updateIndexRefs, updateIndexes, List.map_cons, bind, Except.bind]
    cases hg : (imaps a).get (values.at k) with
    | error e => rfl
    | ok bucket =>
      simp only
      cases hs : (imaps a).set (values.at k) (bucket ++ [n]) with
      | error e => rfl
      | ok ix =>
        simp only
        have hrest : l.map (fun p => (p.1, imaps p.2))
            = l.map (fun p => (p.1, Function.update imaps a ix p.2)) := by
          apply List.map_congr_left
          intro p hp
          have : p.2 ≠ a := fun he =>
            hnd.1 (by rw [← he]; exact List.mem_map.2 ⟨p, hp, rfl⟩)
          rw [Function.update_noteq this]
        rw [hrest, ← ih (Function.update imaps a ix) hnd.2]
        cases hr : updateIndexRefs values n (Function.update imaps a ix) l with
        | error e => rfl
        | ok im =>
          simp only [Except.map]
          rw [updateIndexRefs_frame _ _ _ _ _ _ hr hnd.1, Function.update_same]

/-- `HeapTable.Insert` read through the addresses is `Table.Insert`, when the map
passed is not a stored row (or already holds the defaults) and every index map
object is registered once. -/
theorem Insert_deref (t : HeapTable) (values : Nat)
    (hkeep : values ∈ t.Rows → applyDefaults t.Columns (t.maps values) = t.maps values)
    (hnd : (t.Indexes.map Prod.snd).Nodup) :
    (t.Insert values).map (fun r => (r.1, r.2.deref)) = t.deref.Insert (t.maps values) := by
  have hrows := fill_rows t values hkeep
  have hidx := updateIndexRefs_deref (applyDefaults t.Columns (t.maps values)) t.Rows.length
    t.Indexes t.imaps hnd
  unfold HeapTable.Insert Table.Insert
  simp only [bind, Except.bind, Function.update_same, hrows, HeapTable.deref, List.length_map]
  cases hc : checkConstraints (t.Rows.map t.maps) (applyDefaults t.Columns (t.maps values))
      t.Columns with
  | error e => rfl
  | ok o =>
    cases o with
    | some e => simp only [Except.map, hrows]
    | none =>
      simp only
      cases hty : checkTypes (applyDefaults t.Columns (t.maps values)) t.Columns with
      | some e => simp only [Except.map, hrows]
      | none =>
        simp only
        rw [← hidx]
        cases hu : updateIndexRefs (applyDefaults t.Columns (t.maps values)) t.Rows.length
            t.imaps t.Indexes with
        | error e => rfl
        | ok im =>
          simp only [Except.map, List.map_append, hrows, List.map_cons, List.map_nil,
            Function.update_same]

theorem ok_beq_true (b : Bool) : ((Except.ok b : Except Fault Bool) == .ok true) = b := by
  cases b <;> decide

/-- Comparing with a value that is not a slice never panics. -/
theorem goEq_comparable (x v : Val) (h : v.comparable = true) :
    x.goEq v = .ok (x.keyEq v) := by
  cases v <;> cases x <;>
    first
    | (simp [Val.comparable] at h; done)
    | simp [Val.goEq, Val.keyEq, ok_beq_true]

theorem matchesAll_comparable (row conds : Row)
    (h : ∀ c ∈ conds, c.2.comparable = true) :
    matchesAllConditions row conds
      = .ok (conds.all (fun c => (row.at c.1).keyEq c.2)) := by
  induction conds with
  | nil => rfl
  | cons c conds ih =>
    obtain ⟨key, value⟩ := c
    have hv : value.comparable = true := h (key, value) (List.mem_cons_self _ _)
    have ih1 := ih (fun c hc => h c (List.mem_cons_of_mem _ hc))
    simp only [matchesAllConditions, goEq_comparable _ _ hv, bind, Except.bind, List.all_cons]
    cases (row.at key).keyEq value
    · rfl
    · simpa using ih1

theorem scanRows_comparable (conds : Row) (rows : List Row)
    (h : ∀ c ∈ conds, c.2.comparable = true) :
    scanRows conds rows
      = .ok (rows.filter (fun row => conds.all (fun c => (row.at c.1).keyEq c.2))) := by
  induction rows with
  | nil => rfl
  | cons row rows ih =>
    simp only [scanRows, matchesAll_comparable row conds h, ih, bind, Except.bind,
      List.filter_cons]

theorem firstIndexed_none (trees : List (String × BTree)) (conds : Row)
    (h : ∀ c ∈ conds, trees.lookup c.1 = none) : firstIndexed trees conds = none := by
  induction conds with
  | nil => rfl
  | cons c conds ih =>
    obtain ⟨key, value⟩ := c
    have h1 : trees.lookup key = none := h (key, value) (List.mem_cons_self _ _)
    simp only [firstIndexed, h1]
    exact ih (fun c hc => h c (List.mem_cons_of_mem _ hc))

/-- The full scan: on a table with a cache that has no entry for the predicate
and no ordered index on a predicate column, `Select` with a predicate whose
values are not slices returns, without error and without changing the table, the
rows in which every predicate column reads a value equal to the required one, in
row order. -/
theorem Select_scan_comparable (fmtFloat : Nat → String) (t : Table) (conds : Row)
    (cache : Cache (List Row)) (hc : t.QueryCache = some cache)
    (hmiss : generateCacheKey fmtFloat conds ∉ cache.keys)
    (hidx : ∀ c ∈ conds, t.BTreeIndexes.lookup c.1 = none)
    (hcmp : ∀ c ∈ conds, c.2.comparable = true) :
    t.Select fmtFloat conds
      = .ok (.ok (t.Rows.filter
          (fun row => conds.all (fun c => (row.at c.1).keyEq c.2))), t) := by
  have ht : ({ t with QueryCache := some cache } : Table) = t := by
    cases t
    simp only at hc
    simp [hc]
  unfold Table.Select
  simp only [hc, Get_miss hmiss, ht, firstIndexed_none _ _ hidx,
    scanRows_comparable _ _ hcmp, bind, Except.bind]

/-- The empty predicate selects every row. -/
theorem Select_scan_empty (fmtFloat : Nat → String) (t : Table)
    (cache : Cache (List Row)) (hc : t.QueryCache = some cache)
    (hmiss : generateCacheKey fmtFloat [] ∉ cache.keys) :
    t.Select fmtFloat [] = .ok (.ok t.Rows, t) := by
  rw [Select_scan_comparable fmtFloat t [] cache hc hmiss (by simp) (by simp)]
  simp

/-! ## `splitChild` -/

theorem idx_ok_iff {α : Type} {xs : List α} {i : Nat} {x : α} :
    idx xs i = .ok x ↔ xs[i]? = some x := by
  unfold idx
  cases xs[i]? <;> simp

theorem sliceTo_ok_le {α : Type} {xs ys : List α} {n : Nat} (h : sliceTo xs n = .ok ys) :
    n ≤ xs.length := by
  unfold sliceTo at h
  split at h
  · assumption
  · cases h

theorem sliceFrom_ok_le {α : Type} {xs ys : List α} {n : Nat} (h : sliceFrom xs n = .ok ys) :
    n ≤ xs.length := by
  unfold sliceFrom at h
  split at h
  · assumption
  · cases h

/-- The node a successful `splitChild(parent, i)` leaves: the median of the child
enters the parent's keys at `i`, the child keeps its lower `degree - 1` keys, and
the new sibling at `i + 1` holds `degree - 1` zero items followed by the keys of
the child above the median. -/
theorem splitChild_shape (parent p1 : Node) (i : Nat) (h : splitChild parent i = .ok p1) :
    ∃ child median, idx parent.Children i = .ok child ∧
      idx child.Keys (degree - 1) = .ok median ∧ i ≤ parent.Keys.length ∧
      degree ≤ child.Keys.length ∧
      p1 = .mk parent.Leaf (parent.Keys.take i ++ ([median] ++ parent.Keys.drop i))
        ((parent.Children.take (i + 1)).set i
            (.mk child.Leaf (child.Keys.take (degree - 1))
              (if child.Leaf then child.Children else child.Children.take degree)) ++
          ([.mk child.Leaf (List.replicate (degree - 1) Item.zero ++ child.Keys.drop degree)
              (if child.Leaf then [] else child.Children.drop degree)] ++
            parent.Children.drop (i + 1))) := by
  unfold splitChild at h
  simp only [bind, Except.bind] at h
  split at h
  · cases h
  rename_i child hchild
  split at h
  · cases h
  rename_i front hfront
  split at h
  · cases h
  rename_i back hback
  split at h
  · cases h
  rename_i keysFront hkf
  split at h
  · cases h
  rename_i median hmed
  split at h
  · cases h
  rename_i keysBack hkb
  split at h
  · cases h
  rename_i upper hupper
  split at h
  · cases h
  rename_i lower hlower
  refine ⟨child, median, hchild, hmed, sliceTo_ok_le hkf, sliceFrom_ok_le hupper, ?_⟩
  rw [sliceTo_ok hfront, sliceFrom_ok hback, sliceTo_ok hkf, sliceFrom_ok hkb,
    sliceFrom_ok hupper, sliceTo_ok hlower] at h
  cases hleaf : child.Leaf with
  | true =>
    simp only [hleaf, Bool.not_true, Bool.false_eq_true, if_false, Except.ok.injEq] at h
    rw [← h]
    simp
  | false =>
    simp only [hleaf, Bool.not_false, if_true] at h
    split at h
    · cases h
    rename_i upperCh hup
    split at h
    · cases h
    rename_i lowerCh hlow
    simp only [Except.ok.injEq] at h
    rw [← h, sliceFrom_ok hup, sliceTo_ok hlow]
    simp

/-! ## Key counts and leaf depth -/

theorem Keys_mk (l : Bool) (ks : List Item) (cs : List Node) :
    (Node.mk l ks cs).Keys = ks := rfl

theorem Leaf_mk (l : Bool) (ks : List Item) (cs : List Node) :
    (Node.mk l ks cs).Leaf = l := rfl

theorem Shaped_sub (h : Nat) (c : Node) (ks : List Item) (cs : List Node)
    (hc : Node.Shaped h c) (hsub : ∀ x ∈ cs, x ∈ c.Children) :
    Node.Shaped h (.mk c.Leaf ks cs) := by
  cases h with
  | zero =>
    refine ⟨hc.1, ?_⟩
    rw [Children_mk]
    cases cs with
    | nil => rfl
    | cons x xs =>
      have := hsub x (List.mem_cons_self _ _)
      rw [hc.2] at this
      cases this
  | succ h => exact ⟨hc.1, fun x hx => hc.2 x (hsub x hx)⟩

theorem shiftLoop_length (key : Val) (keys : List Item) (j : Nat) (r : List Item × Nat)
    (h : shiftLoop key keys j = .ok r) : r.1.length = keys.length := by
  induction j generalizing keys with
  | zero =>
    simp only [shiftLoop, Except.ok.injEq] at h
    rw [← h]
  | succ i ih =>
    unfold shiftLoop at h
    simp only [bind, Except.bind] at h
    split at h
    · cases h
    split at h
    · cases h
    split at h
    · cases h
    split at h
    · rw [ih _ h, List.length_set]
    · simp only [Except.ok.injEq] at h
      rw [← h]

/-- A successful split of a full child keeps the shape of the parent, adds one
key to it, and leaves `degree - 1` items in the child at `i` and `2 * degree - 2`
items in the sibling at `i + 1`. -/
theorem splitChild_shaped (h : Nat) (parent p1 child : Node) (i : Nat)
    (hs : splitChild parent i = .ok p1) (hp : Node.Shaped (h + 1) parent)
    (hc : idx parent.Children i = .ok child) (h7 : child.Keys.length = 2 * degree - 1) :
    Node.Shaped (h + 1) p1 ∧ p1.Keys.length = parent.Keys.length + 1 ∧
    ∃ c1 c2, idx p1.Children i = .ok c1 ∧ idx p1.Children (i + 1) = .ok c2 ∧
      c1.Keys.length = degree - 1 ∧ c2.Keys.length = 2 * degree - 2 := by
  obtain ⟨child1, median, hc1, -, hik, -, rfl⟩ := splitChild_shape parent p1 i hs
  rw [hc] at hc1
  cases hc1
  have hi : i < parent.Children.length := by
    rw [idx_ok_iff] at hc
    exact (List.getElem?_eq_some.1 hc).1
  have hchild := hp.2 child (idx_mem hc)
  have hlenT : (parent.Children.take (i + 1)).length = i + 1 := by
    rw [List.length_take]; omega
  have hd : degree = 4 := rfl
  refine ⟨⟨hp.1, ?_⟩, ?_,
    .mk child.Leaf (child.Keys.take (degree - 1))
      (if child.Leaf then child.Children else child.Children.take degree),
    .mk child.Leaf (List.replicate (degree - 1) Item.zero ++ child.Keys.drop degree)
      (if child.Leaf then [] else child.Children.drop degree), ?_, ?_, ?_, ?_⟩
  · intro c hcm
    simp only [Children_mk, List.mem_append, List.mem_singleton] at hcm
    rcases hcm with hcm | rfl | hcm
    · rcases List.mem_or_eq_of_mem_set hcm with hcm | rfl
      · exact hp.2 c (List.mem_of_mem_take hcm)
      · refine ⟨?_, ?_, Shaped_sub h child _ _ hchild.2.2 ?_⟩
        · simp only [Keys_mk, List.length_take]; omega
        · simp only [Keys_mk, List.length_take]; omega
        · intro x hx
          split at hx
          · exact hx
          · exact List.mem_of_mem_take hx
    · refine ⟨?_, ?_, Shaped_sub h child _ _ hchild.2.2 ?_⟩
      · simp only [Keys_mk, List.length_append, List.length_replicate, List.length_drop]; omega
      · simp only [Keys_mk, List.length_append, List.length_replicate, List.length_drop]; omega
      · intro x hx
        split at hx
        · cases hx
        · exact List.mem_of_mem_drop hx
    · exact hp.2 c (List.mem_of_mem_drop hcm)
  · simp only [Keys_mk, List.length_append, List.length_take, List.length_cons,
      List.length_nil, List.length_drop]
    omega
  · rw [idx_ok_iff, Children_mk, List.getElem?_append_left (by rw [List.length_set]; omega)]
    rw [List.getElem?_set_self (by omega)]
  · rw [idx_ok_iff, Children_mk, List.getElem?_append_right (by rw [List.length_set]; omega)]
    rw [List.length_set, hlenT]
    simp
  · simp only [Keys_mk, List.length_take]; omega
  · simp only [Keys_mk, List.length_append, List.length_replicate, List.length_drop]; omega

theorem Shaped_set (h : Nat) (node c : Node) (i : Nat) (hn : Node.Shaped (h + 1) node)
    (hc : degree - 1 ≤ c.Keys.length ∧ c.Keys.length ≤ 2 * degree - 1 ∧ Node.Shaped h c) :
    Node.Shaped (h + 1) (.mk node.Leaf node.Keys (node.Children.set i c)) := by
  refine ⟨hn.1, fun x hx => ?_⟩
  rw [Children_mk] at hx
  rcases List.mem_or_eq_of_mem_set hx with hx | rfl
  · exact hn.2 x hx
  · exact hc

/-- `insertNonFull` on a node that is not full keeps its shape and height, adds at
most one key to it and removes none. -/
theorem insertNonFull_shaped (n h : Nat) (node node1 : Node) (key value : Val)
    (hins : insertNonFull n node key value = .ok node1) (hn : Node.Shaped h node)
    (hlen : node.Keys.length < 2 * degree - 1) :
    Node.Shaped h node1 ∧ node.Keys.length ≤ node1.Keys.length ∧
      node1.Keys.length ≤ 2 * degree - 1 := by
  induction n generalizing h node node1 with
  | zero => simp [insertNonFull] at hins
  | succ m ih =>
    unfold insertNonFull at hins
    cases hleaf : node.Leaf with
    | true =>
      simp only [hleaf, if_true, bind, Except.bind] at hins
      split at hins
      · cases hins
      rename_i r hr
      have hl := shiftLoop_length _ _ _ _ hr
      obtain ⟨keys, j⟩ := r
      simp only at hins hl
      split at hins
      · simp only [Except.ok.injEq] at hins
        subst hins
        simp only [Keys_mk, List.length_set, hl, List.length_append, List.length_cons,
          List.length_nil]
        refine ⟨?_, by omega, by omega⟩
        cases h with
        | zero => exact ⟨rfl, hn.2⟩
        | succ h => rw [hn.1] at hleaf; cases hleaf
      · cases hins
    | false =>
      cases h with
      | zero => rw [hn.1] at hleaf; cases hleaf
      | succ h =>
        simp only [hleaf, Bool.false_eq_true, if_false, bind, Except.bind] at hins
        split at hins
        · cases hins
        rename_i i hi
        split at hins
        · cases hins
        rename_i c hc
        have hcs := hn.2 c (idx_mem hc)
        split at hins
        · rename_i h7
          split at hins
          · cases hins
          rename_i p1 hsplit
          obtain ⟨hp1, hk1, c1, c2, hc1, hc2, hl1, hl2⟩ :=
            splitChild_shaped h node p1 c i hsplit hn hc h7
          split at hins
          · cases hins
          rename_i k hk
          split at hins
          · cases hins
          rename_i it hit
          split at hins
          · cases hins
          rename_i ki hki
          split at hins
          · cases hins
          rename_i c3 hc3
          split at hins
          · cases hins
          rename_i c4 hc4
          simp only [Except.ok.injEq] at hins
          subst hins
          have hc3m := hp1.2 c3 (idx_mem hc3)
          have hc3len : c3.Keys.length < 2 * degree - 1 := by
            by_cases hgt : k > ki
            · simp only [hgt, if_true] at hc3
              rw [hc2] at hc3
              cases hc3
              simp only [degree] at hl2 ⊢
              omega
            · simp only [hgt, if_false] at hc3
              rw [hc1] at hc3
              cases hc3
              simp only [degree] at hl1 ⊢
              omega
          obtain ⟨hs4, hge4, hle4⟩ := ih h c3 c4 hc4 hc3m.2.2 hc3len
          have hd : degree = 4 := rfl
          refine ⟨Shaped_set h p1 c4 _ hp1 ⟨by omega, hle4, hs4⟩, ?_, ?_⟩
          · rw [Keys_mk, hk1]; omega
          · rw [Keys_mk, hk1]; omega
        · rename_i h7
          split at hins
          · cases hins
          rename_i c4 hc4
          simp only [Except.ok.injEq] at hins
          subst hins
          obtain ⟨hs4, hge4, hle4⟩ := ih h c c4 hc4 hcs.2.2 (by omega)
          have hset := Shaped_set h node c4 i hn ⟨by omega, hle4, hs4⟩
          rw [hleaf] at hset
          refine ⟨hset, ?_, ?_⟩
          · rw [Keys_mk]
          · rw [Keys_mk]; omega

/-- `Insert` keeps the tree of uniform height with at most `2 * degree - 1` items
in the root and between `degree - 1` and `2 * degree - 1` in every other node. -/
theorem Insert_shaped (t t1 : BTree) (key value : Val) (h : Nat)
    (hins : t.Insert key value = .ok t1) (ht : Node.Shaped h t.Root)
    (hlen : t.Root.Keys.length ≤ 2 * degree - 1) :
    ∃ h1, Node.Shaped h1 t1.Root ∧ t1.Root.Keys.length ≤ 2 * degree - 1 := by
  unfold BTree.Insert at hins
  simp only [bind, Except.bind] at hins
  split at hins
  · rename_i h7
    split at hins
    · cases hins
    rename_i p1 hsplit
    split at hins
    · cases hins
    rename_i r hr
    simp only [Except.ok.injEq] at hins
    subst hins
    have hnew : Node.Shaped (h + 1) (.mk false [] [t.Root]) := by
      refine ⟨rfl, fun c hc => ?_⟩
      rw [Children_mk, List.mem_singleton] at hc
      subst hc
      exact ⟨by omega, hlen, ht⟩
    obtain ⟨hp1, hk1, -⟩ :=
      splitChild_shaped h (.mk false [] [t.Root]) p1 t.Root 0 hsplit hnew rfl h7
    have := insertNonFull_shaped _ (h + 1) p1 r key value hr hp1
      (by rw [hk1, Keys_mk]; simp [degree])
    exact ⟨h + 1, this.1, this.2.2⟩
  · rename_i h7
    split at hins
    · cases hins
    rename_i r hr
    simp only [Except.ok.injEq] at hins
    subst hins
    have := insertNonFull_shaped _ h t.Root r key value hr ht (by omega)
    exact ⟨h, this.1, this.2.2⟩

theorem insertSeq_shaped (ops : List (Val × Val)) (t t1 : BTree) (h : Nat)
    (hins : t.insertSeq ops = .ok t1) (ht : Node.Shaped h t.Root)
    (hlen : t.Root.Keys.length ≤ 2 * degree - 1) :
    ∃ h1, Node.Shaped h1 t1.Root ∧ t1.Root.Keys.length ≤ 2 * degree - 1 := by
  induction ops generalizing t h with
  | nil =>
    simp only [BTree.insertSeq, Except.ok.injEq] at hins
    subst hins
    exact ⟨h, ht, hlen⟩
  | cons op ops ih =>
    obtain ⟨k, v⟩ := op
    simp only [BTree.insertSeq, bind, Except.bind] at hins
    split at hins
    · cases hins
    rename_i t2 ht2
    obtain ⟨h2, hs2, hl2⟩ := Insert_shaped t t2 k v h ht2 ht hlen
    exact ih t2 h2 hins hs2 hl2

theorem mem_descendantsList (cs : List Node) (x : Node) :
    x ∈ descendantsList cs ↔ ∃ c ∈ cs, x = c ∨ x ∈ c.descendants := by
  induction cs with
  | nil => simp [descendantsList]
  | cons c cs ih =>
    simp only [descendantsList, List.mem_cons, List.mem_append, ih]
    constructor
    · rintro (rfl | h | ⟨c1, hc1, h⟩)
      · exact ⟨x, Or.inl rfl, Or.inl rfl⟩
      · exact ⟨c, Or.inl rfl, Or.inr h⟩
      · exact ⟨c1, Or.inr hc1, h⟩
    · rintro ⟨c1, rfl | hc1, h⟩
      · rcases h with rfl | h
        · exact Or.inl rfl
        · exact Or.inr (Or.inl h)
      · exact Or.inr (Or.inr ⟨c1, hc1, h⟩)

theorem descendants_eq (node : Node) : node.descendants = descendantsList node.Children := by
  cases node
  simp [Node.descendants, Node.Children]

theorem mem_leafDepthsList (cs : List Node) (d : Nat) :
    d ∈ leafDepthsList cs ↔ ∃ c ∈ cs, d ∈ c.leafDepths := by
  induction cs with
  | nil => simp [leafDepthsList]
  | cons c cs ih => simp [leafDepthsList, ih]

theorem leafDepths_eq (node : Node) :
    node.leafDepths
      = if node.Leaf then [0] else (leafDepthsList node.Children).map (fun d => d + 1) := by
  cases node
  simp [Node.leafDepths, Node.Children, Node.Leaf]

/-- In a shaped subtree every node below the top holds between `degree - 1` and
`2 * degree - 1` items. -/
theorem Shaped_descendants (h : Nat) (node : Node) (hn : Node.Shaped h node) :
    ∀ x ∈ node.descendants,
      degree - 1 ≤ x.Keys.length ∧ x.Keys.length ≤ 2 * degree - 1 := by
  induction h generalizing node with
  | zero =>
    intro x hx
    rw [descendants_eq, hn.2] at hx
    simp [descendantsList] at hx
  | succ h ih =>
    intro x hx
    rw [descendants_eq, mem_descendantsList] at hx
    obtain ⟨c, hc, rfl | hx⟩ := hx
    · exact ⟨(hn.2 x hc).1, (hn.2 x hc).2.1⟩
    · exact ih c (hn.2 c hc).2.2 x hx

/-- In a shaped subtree of height `h` every leaf is at depth `h`. -/
theorem Shaped_leafDepths (h : Nat) (node : Node) (hn : Node.Shaped h node) :
    ∀ d ∈ node.leafDepths, d = h := by
  induction h generalizing node with
  | zero =>
    intro d hd
    rw [leafDepths_eq, hn.1] at hd
    simpa using hd
  | succ h ih =>
    intro d hd
    rw [leafDepths_eq, hn.1] at hd
    simp only [Bool.false_eq_true, if_false, List.mem_map] at hd
    obtain ⟨d1, hd1, rfl⟩ := hd
    rw [mem_leafDepthsList] at hd1
    obtain ⟨c, hc, hd1⟩ := hd1
    rw [ih c (hn.2 c hc).2.2 d1 hd1]

theorem insertSeq_ne_fuel (ops : List (Val × Val)) (t : BTree) :
    t.insertSeq ops ≠ .error .fuel := by
  induction ops generalizing t with
  | nil => simp [BTree.insertSeq]
  | cons op ops ih =>
    obtain ⟨k, v⟩ := op
    unfold BTree.insertSeq
    exact bind_ne_fuel _ _ (Insert_ne_fuel t k v) fun t1 _ => ih t1

/-- The entries of `Keys`, the zero items a split leaves in the new sibling
included: a sequence of `Insert` calls on a new tree either stops in a Go panic
(never in the recursion budget of the embedding) or all calls return, and then
every node below the root has between 3 and 7 entries in `Keys`, the root has at
most 7, and all leaves are at the same depth. -/
theorem key_counts_and_balance (ops : List (Val × Val)) :
    NewBTree.insertSeq ops ≠ .error .fuel ∧
    ∀ t, NewBTree.insertSeq ops = .ok t →
      (∀ n ∈ t.Root.descendants, 3 ≤ n.Keys.length ∧ n.Keys.length ≤ 7) ∧
      t.Root.Keys.length ≤ 7 ∧
      (∀ a ∈ t.Root.leafDepths, ∀ b ∈ t.Root.leafDepths, a = b) := by
  refine ⟨insertSeq_ne_fuel ops NewBTree, fun t h => ?_⟩
  obtain ⟨h1, hs, hl⟩ := insertSeq_shaped ops NewBTree t 0 h ⟨rfl, rfl⟩ (by decide)
  refine ⟨Shaped_descendants h1 t.Root hs, hl, fun a ha b hb => ?_⟩
  rw [Shaped_leafDepths h1 t.Root hs a ha, Shaped_leafDepths h1 t.Root hs b hb]

/-- The entries of `Keys` in the tree built from nine ascending keys. -/
theorem key_counts_and_balance_tree9 :
    NewBTree.insertSeq seq9 = .ok tree9 ∧
    (∀ n ∈ tree9.Root.descendants, 3 ≤ n.Keys.length ∧ n.Keys.length ≤ 7) ∧
    tree9.Root.leafDepths = [1, 1, 1] :=
  ⟨rfl, ((key_counts_and_balance seq9).2 tree9 rfl).1, rfl⟩

theorem insertSeq_append (t : BTree) (a b : List (Val × Val)) :
    t.insertSeq (a ++ b) = t.insertSeq a >>= fun t1 => t1.insertSeq b := by
  induction a generalizing t with
  | nil => rfl
  | cons op a ih =>
    obtain ⟨k, v⟩ := op
    rw [List.cons_append]
    simp only [BTree.insertSeq, bind, Except.bind]
    cases t.Insert k v with
    | error e => rfl
    | ok t1 =>
      simp only
      rw [ih]
      rfl

/-- Fifteen ascending inserts end in a panic: the fifteenth splits the full root,
whose new sibling takes six keys and four children, and then indexes the
sibling's children at position 6. -/
theorem insertSeq_seq15 : NewBTree.insertSeq seq15 = .error .indexOutOfRange := by
  have h9 : NewBTree.insertSeq seq9 = .ok
      (ascTree [(4, .str "p4"), (5, .str "p5")] 1 [(6, .str "p6"), (7, .str "p7"),
        (8, .str "p8"), (9, .str "p9")]) :=
    rfl
  have h10 :
      (ascTree [(4, .str "p4"), (5, .str "p5")] 1 [(6, .str "p6"), (7, .str "p7"),
        (8, .str "p8"), (9, .str "p9")]).Insert (.int 10) (.str "p10") = .ok
        (ascTree [(4, .str "p4"), (5, .str "p5"), (6, .str "p6")] 2 [(7, .str "p7"),
          (8, .str "p8"), (9, .str "p9"), (10, .str "p10")]) :=
    rfl
  have h11 :
      (ascTree [(4, .str "p4"), (5, .str "p5"), (6, .str "p6")] 2 [(7, .str "p7"),
        (8, .str "p8"), (9, .str "p9"), (10, .str "p10")]).Insert (.int 11) (.str "p11") = .ok
        (ascTree [(4, .str "p4"), (5, .str "p5"), (6, .str "p6"), (7, .str "p7")] 3
          [(8, .str "p8"), (9, .str "p9"), (10, .str "p10"), (11, .str "p11")]) :=
    rfl
  have h12 :
      (ascTree [(4, .str "p4"), (5, .str "p5"), (6, .str "p6"), (7, .str "p7")] 3
        [(8, .str "p8"), (9, .str "p9"), (10, .str "p10"),
        (11, .str "p11")]).Insert (.int 12) (.str "p12") = .ok
        (ascTree [(4, .str "p4"), (5, .str "p5"), (6, .str "p6"), (7, .str "p7"),
          (8, .str "p8")] 4 [(9, .str "p9"), (10, .str "p10"), (11, .str "p11"),
          (12, .str "p12")]) :=
    rfl
  have h13 :
      (ascTree [(4, .str "p4"), (5, .str "p5"), (6, .str "p6"), (7, .str "p7"), (8, .str "p8")]
        4 [(9, .str "p9"), (10, .str "p10"), (11, .str "p11"),
        (12, .str "p12")]).Insert (.int 13) (.str "p13") = .ok
        (ascTree [(4, .str "p4"), (5, .str "p5"), (6, .str "p6"), (7, .str "p7"),
          (8, .str "p8"), (9, .str "p9")] 5 [(10, .str "p10"), (11, .str "p11"),
          (12, .str "p12"), (13, .str "p13")]) :=
    rfl
  have h14 :
      (ascTree [(4, .str "p4"), (5, .str "p5"), (6, .str "p6"), (7, .str "p7"), (8, .str "p8"),
        (9, .str "p9")] 5 [(10, .str "p10"), (11, .str "p11"), (12, .str "p12"),
        (13, .str "p13")]).Insert (.int 14) (.str "p14") = .ok
        (ascTree [(4, .str "p4"), (5, .str "p5"), (6, .str "p6"), (7, .str "p7"),
          (8, .str "p8"), (9, .str "p9"), (10, .str "p10")] 6 [(11, .str "p11"),
          (12, .str "p12"), (13, .str "p13"), (14, .str "p14")]) :=
    rfl
  have h15 :
      (ascTree [(4, .str "p4"), (5, .str "p5"), (6, .str "p6"), (7, .str "p7"), (8, .str "p8"),
        (9, .str "p9"), (10, .str "p10")] 6 [(11, .str "p11"), (12, .str "p12"),
        (13, .str "p13"),
        (14, .str "p14")]).Insert (.int 15) (.str "p15") = .error .indexOutOfRange :=
    rfl
  unfold seq15
  rw [insertSeq_append, h9]
  simp only [bind, Except.bind, BTree.insertSeq, h10, h11, h12, h13, h14, h15]

/-- C11: nine inserts with ascending keys return the tree `tree9`, whose second
leaf stores three zero items and none of the inserted keys, where a node below the
root is to hold at least three keys; the numbers of inserted keys in the three
leaves are 3, 0 and 4. With six more ascending inserts the sequence ends in an
index-out-of-range panic and leaves no tree. -/
theorem nine_inserts_leave_empty_leaf :
    NewBTree.insertSeq seq9 = .ok tree9 ∧
    tree9.Root.descendants.map (fun n => n.Keys)
      = [items [(1, .str "p1"), (2, .str "p2"), (3, .str "p3")],
         [Item.zero, Item.zero, Item.zero],
         [Item.zero, Item.zero, Item.zero] ++
           items [(6, .str "p6"), (7, .str "p7"), (8, .str "p8"), (9, .str "p9")]] ∧
    tree9.Root.descendants.map
      (fun n => (n.Keys.filter (fun it => seq9.any (fun op => op.1 == it.Key))).length)
      = [3, 0, 4] ∧
    NewBTree.insertSeq seq15 = .error .indexOutOfRange :=
  ⟨rfl, rfl, by decide, insertSeq_seq15⟩

/-! ## A tree that is a single leaf -/

theorem items_append (a b : List (Int × Val)) : items (a ++ b) = items a ++ items b := by
  simp [items]

theorem items_length (a : List (Int × Val)) : (items a).length = a.length := by
  simp [items]

/-- The shifting loop on a leaf with integer keys: the entries with a key above
`k` at the end of the leaf move one place up, and the loop stops below them, at
an entry whose key is not above `k` or at the front. -/
theorem shiftLoop_items (k : Int) (la : List (Int × Val)) (x : Item) (r : List Item) :
    ∃ a b y, la = a ++ b ∧ (∀ p ∈ b, k < p.1) ∧
      (∀ p, a.getLast? = some p → ¬ k < p.1) ∧
      shiftLoop (.int k) (items la ++ x :: r) la.length
        = .ok (items a ++ y :: (items b ++ r), a.length) := by
  induction la using List.reverseRecOn generalizing x r with
  | nil => exact ⟨[], [], x, rfl, by simp, by simp, by simp [shiftLoop, items]⟩
  | append_singleton la p ih =>
    obtain ⟨pk, pv⟩ := p
    have hidx : idx (items (la ++ [(pk, pv)]) ++ x :: r) la.length = .ok ⟨.int pk, pv⟩ := by
      rw [idx_ok_iff, items_append, List.append_assoc,
        List.getElem?_append_right (by rw [items_length])]
      simp [items]
    by_cases hlt : k < pk
    · obtain ⟨a, b, y, hab, hb, ha, hs⟩ := ih ⟨.int pk, pv⟩ (⟨.int pk, pv⟩ :: r)
      refine ⟨a, b ++ [(pk, pv)], y, by rw [hab, List.append_assoc], ?_, ha, ?_⟩
      · intro q hq
        rcases List.mem_append.1 hq with hq | hq
        · exact hb q hq
        · simp only [List.mem_singleton] at hq
          subst hq
          exact hlt
      · rw [List.length_append, List.length_singleton]
        unfold shiftLoop
        simp only [Val.asInt, bind, Except.bind, hidx, hlt, if_true]
        have hset : (items (la ++ [(pk, pv)]) ++ x :: r).set (la.length + 1) ⟨.int pk, pv⟩
            = items la ++ ⟨.int pk, pv⟩ :: (⟨.int pk, pv⟩ :: r) := by
          rw [items_append, List.append_assoc]
          rw [List.set_append_right _ _ (by rw [items_length]; omega)]
          simp [items]
        rw [hset, hs, items_append]
        simp [items]
    · refine ⟨la ++ [(pk, pv)], [], x, by simp, by simp, ?_, ?_⟩
      · intro q hq
        simp only [List.getLast?_append, List.getLast?_singleton] at hq
        cases hq
        exact hlt
      · rw [List.length_append, List.length_singleton]
        unfold shiftLoop
        simp only [Val.asInt, bind, Except.bind, hidx, hlt, if_false]
        simp [items]

/-- `Insert` on a tree that is one sorted leaf with room: the new entry goes
behind the entries whose key is at most `k` and before those whose key is above. -/
theorem Insert_leaf (l : List (Int × Val)) (hs : l.Pairwise (fun p q => p.1 ≤ q.1))
    (hlen : l.length < 2 * degree - 1) (k : Int) (v : Val) :
    ∃ a b, l = a ++ b ∧ (∀ p ∈ a, p.1 ≤ k) ∧ (∀ p ∈ b, k < p.1) ∧
      BTree.Insert ⟨.mk true (items l) []⟩ (.int k) v
        = .ok ⟨.mk true (items (a ++ (k, v) :: b)) []⟩ := by
  obtain ⟨a, b, y, hab, hb, ha, hshift⟩ := shiftLoop_items k l Item.zero []
  refine ⟨a, b, hab, ?_, hb, ?_⟩
  · intro p hp
    rcases List.eq_nil_or_concat a with rfl | ⟨a1, q, rfl⟩
    · cases hp
    · have hq : ¬ k < q.1 := ha q (by simp)
      rw [hab] at hs
      have hsa := (List.pairwise_append.1 hs).1
      rw [List.concat_eq_append] at hp hsa
      rcases List.mem_append.1 hp with hp | hp
      · have := (List.pairwise_append.1 hsa).2.2 p hp q (by simp)
        omega
      · simp only [List.mem_singleton] at hp
        subst hp
        omega
  · have hne : ¬ (items l).length = 2 * degree - 1 := by rw [items_length]; omega
    unfold BTree.Insert
    simp only [Keys_mk, hne, if_false, bind, Except.bind]
    have hfuel : (Node.mk true (items l) []).height + 1 = 1 + 1 := by
      simp [Node.height, heightList]
    rw [hfuel]
    unfold insertNonFull
    simp only [Leaf_mk, if_true, Keys_mk, bind, Except.bind, items_length, hshift]
    have hj : a.length < (items a ++ y :: (items b ++ [])).length := by
      simp [items_length]
    simp only [hj, if_true]
    congr 3
    rw [List.set_append_right _ _ (by rw [items_length]), items_length, Nat.sub_self,
      items_append]
    simp [items]

theorem scanLoop_items (k : Int) (l : List (Int × Val)) (i : Nat) :
    scanLoop (.int k) (items l) i
      = .ok (i + (l.takeWhile (fun p => decide (p.1 < k))).length) := by
  induction l generalizing i with
  | nil => simp [items, scanLoop]
  | cons p l ih =>
    obtain ⟨pk, pv⟩ := p
    have hi := ih (i + 1)
    simp only [items] at hi ⊢
    simp only [List.map_cons, scanLoop, Val.asInt, bind, Except.bind, gt_iff_lt]
    by_cases hlt : pk < k
    · simp only [hlt, if_true, hi, List.takeWhile_cons, decide_True, List.length_cons]
      congr 1
      omega
    · simp [hlt, List.takeWhile_cons]

theorem getElem?_takeWhile_length {α : Type} (p : α → Bool) (l : List α) :
    l[(l.takeWhile p).length]? = (l.dropWhile p).head? := by
  induction l with
  | nil => rfl
  | cons a l ih =>
    by_cases h : p a
    · simp [List.takeWhile_cons, List.dropWhile_cons, h, ih]
    · simp [List.takeWhile_cons, List.dropWhile_cons, h]

theorem find_sorted (k : Int) (l : List (Int × Val))
    (hs : l.Pairwise (fun p q => p.1 ≤ q.1)) :
    l.find? (fun p => p.1 == k)
      = match (l.dropWhile (fun p => decide (p.1 < k))).head? with
        | some p => if p.1 = k then some p else none
        | none => none := by
  induction l with
  | nil => rfl
  | cons p l ih =>
    rw [List.pairwise_cons] at hs
    by_cases hlt : p.1 < k
    · have hne : ¬ p.1 = k := by omega
      rw [List.find?_cons_of_neg _ (by simpa using hne)]
      simp only [List.dropWhile_cons, hlt, decide_True, if_true]
      exact ih hs.2
    · simp only [List.dropWhile_cons, hlt, decide_False, List.head?_cons]
      by_cases he : p.1 = k
      · rw [List.find?_cons_of_pos _ (by simpa using he)]
        simp [he]
      · have hnone : l.find? (fun q => q.1 == k) = none := by
          rw [List.find?_eq_none]
          intro q hq
          have := hs.1 q hq
          simp only [beq_iff_eq]
          omega
        rw [List.find?_cons_of_neg _ (by simpa using he), hnone]
        simp [he]

/-- `Search` on a tree that is one sorted leaf returns the payload of the first
entry with the key, or nil when no entry has it. -/
theorem Search_leaf (l : List (Int × Val)) (hs : l.Pairwise (fun p q => p.1 ≤ q.1))
    (k : Int) :
    BTree.Search ⟨.mk true (items l) []⟩ (.int k)
      = .ok (match l.find? (fun p => p.1 == k) with
        | some p => p.2
        | none => .nil) := by
  have hfuel : (Node.mk true (items l) []).height + 1 = 1 + 1 := by
    simp [Node.height, heightList]
  unfold BTree.Search
  rw [hfuel]
  unfold searchNode
  simp only [Keys_mk, Leaf_mk, scanLoop_items, Nat.zero_add, bind, Except.bind]
  have hget : (items l)[(l.takeWhile (fun p => decide (p.1 < k))).length]?
      = ((l.dropWhile (fun p => decide (p.1 < k))).head?).map (fun p => ⟨.int p.1, p.2⟩) := by
    rw [← getElem?_takeWhile_length]
    simp [items]
  rw [hget, find_sorted k l hs]
  cases (l.dropWhile (fun p => decide (p.1 < k))).head? with
  | none => rfl
  | some p =>
    simp only [Option.map_some', Val.asInt, bind, Except.bind, pure, Except.pure]
    by_cases he : k = p.1
    · simp [he]
    · have he2 : ¬ p.1 = k := fun e => he e.symm
      simp [he, he2]

/-- At most `2 * degree - 1` inserts, starting from a sorted leaf with room for
them, leave a tree that is one sorted leaf holding the old and the new entries,
in which the first entry with a given key is the one inserted first. -/
theorem insertAll_leaf (kvs l done : List (Int × Val))
    (hs : l.Pairwise (fun p q => p.1 ≤ q.1)) (hperm : l.Perm done)
    (hfirst : ∀ k, l.find? (fun p => p.1 == k) = done.find? (fun p => p.1 == k))
    (hlen : l.length + kvs.length ≤ 2 * degree - 1) :
    ∃ l1, BTree.insertAll ⟨.mk true (items l) []⟩ kvs = .ok ⟨.mk true (items l1) []⟩ ∧
      l1.Pairwise (fun p q => p.1 ≤ q.1) ∧ l1.Perm (done ++ kvs) ∧
      ∀ k, l1.find? (fun p => p.1 == k) = (done ++ kvs).find? (fun p => p.1 == k) := by
  induction kvs generalizing l done with
  | nil => exact ⟨l, rfl, hs, by simpa using hperm, by simpa using hfirst⟩
  | cons kv kvs ih =>
    obtain ⟨k, v⟩ := kv
    simp only [List.length_cons] at hlen
    obtain ⟨a, b, hab, ha, hb, hins⟩ := Insert_leaf l hs (by omega) k v
    have hs1 : (a ++ (k, v) :: b).Pairwise (fun p q => p.1 ≤ q.1) := by
      rw [hab, List.pairwise_append] at hs
      rw [List.pairwise_append, List.pairwise_cons]
      refine ⟨hs.1, ⟨fun q hq => ?_, hs.2.1⟩, fun p hp q hq => ?_⟩
      · have := hb q hq
        show k ≤ q.1
        omega
      · rcases List.mem_cons.1 hq with rfl | hq
        · exact ha p hp
        · exact hs.2.2 p hp q hq
    have hperm1 : (a ++ (k, v) :: b).Perm ((done ++ [(k, v)])) := by
      refine List.perm_middle.trans ?_
      refine (List.Perm.cons _ (hab ▸ hperm)).trans ?_
      exact (List.perm_append_singleton _ _).symm
    have hfirst1 : ∀ k1, (a ++ (k, v) :: b).find? (fun p => p.1 == k1)
        = (done ++ [(k, v)]).find? (fun p => p.1 == k1) := by
      intro k1
      have hl := hfirst k1
      rw [hab] at hl
      rw [List.find?_append, List.find?_append, ← hl, List.find?_append]
      by_cases he : k = k1
      · subst he
        have hbn : b.find? (fun p => p.1 == k) = none := by
          rw [List.find?_eq_none]
          intro q hq
          have := hb q hq
          simp only [beq_iff_eq]
          omega
        rw [List.find?_cons_of_pos _ (by simp), List.find?_cons_of_pos _ (by simp), hbn]
        simp
      · rw [List.find?_cons_of_neg _ (by simpa using he),
          List.find?_cons_of_neg _ (by simpa using he)]
        simp
    obtain ⟨l1, hall, hs2, hperm2, hfirst2⟩ :=
      ih (a ++ (k, v) :: b) (done ++ [(k, v)]) hs1 hperm1 hfirst1
        (by
          have : l.length = a.length + b.length := by rw [hab, List.length_append]
          simp only [List.length_append, List.length_cons]
          omega)
    refine ⟨l1, ?_, hs2, by simpa using hperm2, fun k1 => by simpa using hfirst2 k1⟩
    simp only [BTree.insertAll, bind, Except.bind, hins]
    exact hall

/-- C13 as stated fails: after `Insert(1, "a")` and `Insert(1, "b")` the leaf holds
both entries, the older one first, and `Search(1)` returns `"a"`, not the payload
`"b"` of the most recent insert. -/
theorem last_writer_loses :
    ∃ t, NewBTree.insertAll twice = .ok t ∧ t.Search (.int 1) = .ok (.str "a") ∧
      ¬ t.Search (.int 1) = .ok (.str "b") :=
  ⟨⟨.mk true (items twice) []⟩, rfl, rfl, by decide⟩

/-- C13 as amended: for at most 7 `Insert` calls on a new tree, which leave the
tree a single leaf, `Search(k)` on a key that was inserted returns the payload of
the earliest `Insert` of `k`. -/
theorem first_writer_wins (kvs : List (Int × Val)) (hlen : kvs.length ≤ 7) :
    ∃ t, NewBTree.insertAll kvs = .ok t ∧
      ∀ p, kvs.find? (fun q => q.1 == p.1) = some p → t.Search (.int p.1) = .ok p.2 := by
  obtain ⟨l1, hall, hs, -, hfirst⟩ :=
    insertAll_leaf kvs [] [] List.Pairwise.nil (List.Perm.refl _) (fun _ => rfl)
      (by simpa [degree] using hlen)
  refine ⟨_, hall, fun p hp => ?_⟩
  rw [Search_leaf l1 hs, hfirst, List.nil_append, hp]

/-- Witness of C13 as amended: the key `1` inserted twice. -/
theorem first_writer_wins_witness :
    ∃ t, NewBTree.insertAll twice = .ok t ∧ t.Search (.int 1) = .ok (.str "a") :=
  let ⟨t, h1, h2⟩ := first_writer_wins twice (by decide)
  ⟨t, h1, h2 (1, .str "a") (by decide)⟩

/-- C21: at most 7 inserts with integer keys into a new tree all return and leave
the root a single leaf without children, whose entries are in non-decreasing key
order and are exactly the inserted pairs; `Search` on an inserted key returns a
payload inserted with that key, and `Search` on any other integer key returns
nil. -/
theorem single_leaf_correct (kvs : List (Int × Val)) (hlen : kvs.length ≤ 7) :
    ∃ l, NewBTree.insertAll kvs = .ok ⟨.mk true (items l) []⟩ ∧
      l.Pairwise (fun p q => p.1 ≤ q.1) ∧ l.Perm kvs ∧
      (∀ p ∈ kvs, ∃ v, (p.1, v) ∈ kvs ∧
        BTree.Search ⟨.mk true (items l) []⟩ (.int p.1) = .ok v) ∧
      (∀ k : Int, (∀ p ∈ kvs, p.1 ≠ k) →
        BTree.Search ⟨.mk true (items l) []⟩ (.int k) = .ok .nil) := by
  obtain ⟨l, hall, hs, hperm, -⟩ :=
    insertAll_leaf kvs [] [] List.Pairwise.nil (List.Perm.refl _) (fun _ => rfl)
      (by simpa [degree] using hlen)
  rw [List.nil_append] at hperm
  refine ⟨l, hall, hs, hperm, fun p hp => ?_, fun k hk => ?_⟩
  · rw [Search_leaf l hs]
    cases hf : l.find? (fun q => q.1 == p.1) with
    | none =>
      rw [List.find?_eq_none] at hf
      exact absurd (by simp) (hf p (hperm.mem_iff.2 hp))
    | some q =>
      have hq1 : q.1 = p.1 := by simpa using List.find?_some hf
      have hq2 : q ∈ kvs := hperm.mem_iff.1 (List.mem_of_find?_eq_some hf)
      refine ⟨q.2, ?_, rfl⟩
      rw [← hq1]
      exact hq2
  · rw [Search_leaf l hs]
    have hf : l.find? (fun q => q.1 == k) = none := by
      rw [List.find?_eq_none]
      intro q hq
      simpa using hk q (hperm.mem_iff.1 hq)
    rw [hf]

/-- Witness of C21: three keys inserted out of order end up sorted in the root. -/
theorem single_leaf_correct_witness :
    NewBTree.insertAll unsorted3
      = .ok ⟨.mk true (items [(1, .str "a"), (2, .str "b"), (3, .str "c")]) []⟩ ∧
    ∃ l, NewBTree.insertAll unsorted3 = .ok ⟨.mk true (items l) []⟩ ∧
      l.Pairwise (fun p q => p.1 ≤ q.1) ∧ l.Perm unsorted3 :=
  ⟨rfl,
    let ⟨l, h1, h2, h3, _⟩ := single_leaf_correct unsorted3 (by decide)
    ⟨l, h1, h2, h3⟩⟩

/-! ## Database container -/

theorem lookup_map_self {β : Type} (m : List (String × β)) (k : String) (g : β → β) :
    (m.map (fun p => if p.1 == k then (p.1, g p.2) else p)).lookup k
      = (m.lookup k).map g := by
  induction m with
  | nil => rfl
  | cons a m ih =>
    obtain ⟨k2, v2⟩ := a
    rw [List.map_cons]
    dsimp only
    by_cases hk : k2 = k
    · subst hk
      rw [if_pos (by simp)]
      simp [List.lookup]
    · have hb : (k == k2) = false := by simpa using fun e => hk e.symm
      rw [if_neg (by simpa using hk)]
      simp only [List.lookup, hb, ih]

theorem lookup_map_other {β : Type} (m : List (String × β)) (k k1 : String) (g : β → β)
    (h : k1 ≠ k) :
    (m.map (fun p => if p.1 == k then (p.1, g p.2) else p)).lookup k1 = m.lookup k1 := by
  induction m with
  | nil => rfl
  | cons a m ih =>
    obtain ⟨k2, v2⟩ := a
    rw [List.map_cons]
    dsimp only
    by_cases hk : k2 = k
    · subst hk
      have hb : (k1 == k2) = false := by simpa using h
      rw [if_pos (by simp)]
      simp only [List.lookup, hb, ih]
    · rw [if_neg (by simpa using hk)]
      simp only [List.lookup, ih]

theorem lookup_eq_none_of_any {β : Type} (m : List (String × β)) (k : String)
    (h : ¬ m.any (fun p => p.1 == k) = true) : m.lookup k = none := by
  induction m with
  | nil => rfl
  | cons a m ih =>
    obtain ⟨k2, v2⟩ := a
    simp only [List.any_cons, Bool.or_eq_true, not_or] at h
    have hb : (k == k2) = false := by
      have h1 := h.1
      simp only [beq_iff_eq] at h1
      simpa using fun e => h1 e.symm
    simp only [List.lookup, hb]
    exact ih h.2

theorem lookup_isSome_of_any {β : Type} (m : List (String × β)) (k : String)
    (h : m.any (fun p => p.1 == k) = true) : ∃ v, m.lookup k = some v := by
  induction m with
  | nil => simp at h
  | cons a m ih =>
    obtain ⟨k2, v2⟩ := a
    by_cases hk : k2 = k
    · exact ⟨v2, by simp [List.lookup, hk]⟩
    · have hb : (k == k2) = false := by simpa using fun e => hk e.symm
      have hb2 : (k2 == k) = false := by simpa using hk
      simp only [List.any_cons, hb2, Bool.false_or] at h
      obtain ⟨v, hv⟩ := ih h
      exact ⟨v, by simp only [List.lookup, hb, hv]⟩

theorem lookup_append_one {β : Type} (m : List (String × β)) (k c : String) (v : β) :
    (m ++ [(k, v)]).lookup c
      = match m.lookup c with
        | some w => some w
        | none => if c = k then some v else none := by
  induction m with
  | nil =>
    by_cases hc : c = k
    · simp [List.lookup, hc]
    · have : (c == k) = false := by simpa using hc
      simp [List.lookup, hc, this]
  | cons a m ih =>
    obtain ⟨k2, v2⟩ := a
    by_cases hk : c = k2
    · simp [List.lookup, hk]
    · have : (c == k2) = false := by simpa using hk
      simp only [List.cons_append, List.lookup, this]
      exact ih

theorem lookup_assocSet_self {β : Type} (m : List (String × β)) (k : String) (v : β) :
    (assocSet m k v).lookup k = some v := by
  unfold assocSet
  split
  · rename_i h
    obtain ⟨w, hw⟩ := lookup_isSome_of_any m k h
    rw [lookup_map_self m k (fun _ => v), hw]
    rfl
  · rename_i h
    rw [lookup_append_one, lookup_eq_none_of_any m k h]
    simp

theorem lookup_assocSet_other {β : Type} (m : List (String × β)) (k k1 : String) (v : β)
    (h : k1 ≠ k) : (assocSet m k v).lookup k1 = m.lookup k1 := by
  unfold assocSet
  split
  · exact lookup_map_other m k k1 (fun _ => v) h
  · rw [lookup_append_one]
    cases m.lookup k1 <;> simp [h]

/-- C14: `CreateTable(name, columns)` returns an error exactly when a table called
`name` exists, and then returns the database as it was; otherwise the database
afterwards holds under `name` the table with those columns and no rows, and
under every other name what it held before. `GetTable(name)` returns an error
exactly when no table called `name` exists, and the stored table otherwise. -/
theorem create_and_get_table (db : Database) (name : String) (columns : List Column) :
    ((db.CreateTable name columns).1 ≠ none ↔ ∃ t, db.Tables.lookup name = some t) ∧
    ((db.CreateTable name columns).1 ≠ none → (db.CreateTable name columns).2 = db) ∧
    ((db.CreateTable name columns).1 = none →
      (db.CreateTable name columns).2.GetTable name
          = .ok ⟨name, columns, [], [], "", [], [], none⟩ ∧
      (db.CreateTable name columns).2.Name = db.Name ∧
      ∀ other, other ≠ name →
        (db.CreateTable name columns).2.Tables.lookup other = db.Tables.lookup other) ∧
    ((∃ e, db.GetTable name = .error e) ↔ db.Tables.lookup name = none) ∧
    (∀ t, db.Tables.lookup name = some t → db.GetTable name = .ok t) := by
  refine ⟨?_, ?_, ?_, ?_, ?_⟩
  · unfold Database.CreateTable
    cases db.Tables.lookup name <;> simp
  · unfold Database.CreateTable
    cases db.Tables.lookup name <;> simp
  · unfold Database.CreateTable
    cases h : db.Tables.lookup name with
    | some t => simp
    | none =>
      intro _
      refine ⟨?_, rfl, fun other ho => lookup_assocSet_other _ _ _ _ ho⟩
      simp only [Database.GetTable, lookup_assocSet_self]
  · unfold Database.GetTable
    cases db.Tables.lookup name <;> simp
  · intro t ht
    simp [Database.GetTable, ht]

/-- Witness of C14: a second `CreateTable("users", _)` on `shopDb` is rejected. -/
theorem create_and_get_table_witness :
    (shopDb.CreateTable "users" []).2.Tables.lookup "users" = some usersCreated :=
  (congrArg (fun d => d.Tables.lookup "users")
    ((create_and_get_table shopDb "users" []).2.1 (by decide))).trans rfl

/-! ## Result cache of a table: creation, write-back and keys -/

/-- A table without a cache: every `Select` dereferences the nil pointer. -/
theorem Select_nil_cache (fmtFloat : Nat → String) (t : Table) (conds : Row)
    (h : t.QueryCache = none) : t.Select fmtFloat conds = .error .nilDeref := by
  simp [Table.Select, h]

/-- C15: the table `CreateTable` stores has a nil `QueryCache` (unlike the table
`CLI.createTable` builds, which gets `cache.NewCache(1000)`), so on the table
`GetTable` returns after `CreateTable`, `Select` with the empty predicate panics
on the nil pointer instead of returning the empty row set. -/
theorem select_after_create_table (fmtFloat : Nat → String) :
    (NewDatabase "shop").CreateTable "users" usersColumns = (none, shopDb) ∧
    shopDb.GetTable "users" = .ok usersCreated ∧
    usersCreated.QueryCache = none ∧
    usersCreated.Select fmtFloat [] = .error .nilDeref :=
  ⟨rfl, rfl, rfl, rfl⟩

/-- C16: `Select` with the predicate `name = "bob"` misses the empty cache of
`usersTable`, returns the row of bob by the full scan, and leaves the cache empty:
a `Get` with the same key right afterwards misses. Only the ordered-index path
calls `QueryCache.Set`: on `usersSliceIndexed` the predicate `id = 1` is answered
through the index and a `Get` with its key afterwards returns the rows. -/
theorem select_scan_not_cached (fmtFloat : Nat → String) :
    usersTable.Select fmtFloat [("name", .str "bob")] = .ok (.ok [rowBob], usersTable) ∧
    usersTable.QueryCache = some (NewCache 1000) ∧
    ((NewCache 1000 : Cache (List Row)).Get
      (generateCacheKey fmtFloat [("name", .str "bob")])).1 = (none, false) ∧
    usersSliceIndexed.Select fmtFloat [("id", .int 1)]
      = .ok (.ok [rowAlice],
          { usersSliceIndexed with QueryCache := some ⟨1000, [⟨"id=1;", [rowAlice]⟩]⟩ }) ∧
    ((⟨1000, [⟨"id=1;", [rowAlice]⟩]⟩ : Cache (List Row)).Get
      (generateCacheKey fmtFloat [("id", .int 1)])).1 = (some [rowAlice], true) :=
  ⟨rfl, rfl, rfl, rfl, rfl⟩

/-- C17: the predicate `{a: 1, b: 2}` enumerated as `a, b` gives the key
`a=1;b=2;`, and enumerated as `b, a` the key `b=2;a=1;`: the key follows the
order in which `range` yields the entries of the map. -/
theorem cache_key_depends_on_order (fmtFloat : Nat → String) :
    List.Perm [("a", Val.int 1), ("b", Val.int 2)] [("b", Val.int 2), ("a", Val.int 1)] ∧
    generateCacheKey fmtFloat [("a", .int 1), ("b", .int 2)] = "a=1;b=2;" ∧
    generateCacheKey fmtFloat [("b", .int 2), ("a", .int 1)] = "b=2;a=1;" ∧
    generateCacheKey fmtFloat [("a", .int 1), ("b", .int 2)]
      ≠ generateCacheKey fmtFloat [("b", .int 2), ("a", .int 1)] := by
  refine ⟨List.Perm.swap _ _ _, rfl, rfl, ?_⟩
  simp only [generateCacheKey, List.foldl, fmtVal]
  decide

/-- C18: the predicates `{id: 1}` and `{id: "1"}` differ in the required value and
get the same key `id=1;`; with the rows of `{id: 1}` cached, `Select` on
`{id: "1"}` returns the row of alice, which does not hold `"1"` in `id`. -/
theorem cache_key_collision (fmtFloat : Nat → String) :
    Val.int 1 ≠ Val.str "1" ∧
    generateCacheKey fmtFloat [("id", .int 1)] = "id=1;" ∧
    generateCacheKey fmtFloat [("id", .str "1")] = "id=1;" ∧
    usersCached.Select fmtFloat [("id", .str "1")] = .ok (.ok [rowAlice], usersCached) ∧
    (rowAlice.at "id").goEq (.str "1") = .ok false :=
  ⟨by decide, rfl, rfl, rfl, rfl⟩

/-! ## Hash indexes -/

theorem holders_append (c : String) (v : Val) (rows : List Row) (row : Row) (i : Nat) :
    holders c v (rows ++ [row]) i
      = holders c v rows i ++ (if (row.at c).keyEq v then [i + rows.length] else []) := by
  induction rows generalizing i with
  | nil => simp [holders]
  | cons r rows ih =>
    have e : i + 1 + rows.length = i + (rows.length + 1) := by omega
    rw [List.cons_append]
    unfold holders
    rw [ih, e, List.length_cons]
    split
    · rfl
    · rfl

/-- C19: `fullChildParent` is not full and its child 0 is a full leaf with the keys
`1..7`; `splitChild(parent, 0)` puts the median `4` at position 0 of the parent's
keys, truncates the child to `1, 2, 3` and keeps the other key and child in
place, but the new sibling at position 1 holds six items, three zero items
followed by `5, 6, 7`, not exactly the upper three keys. -/
theorem split_full_leaf :
    splitChild fullChildParent 0
      = .ok (.mk false [⟨.int 4, .str "p4"⟩, ⟨.int 100, .str "q"⟩]
          [.mk true (items [(1, .str "p1"), (2, .str "p2"), (3, .str "p3")]) [],
           .mk true ([Item.zero, Item.zero, Item.zero] ++
              items [(5, .str "p5"), (6, .str "p6"), (7, .str "p7")]) [],
           .mk true (items [(101, .str "r1"), (102, .str "r2"), (103, .str "r3")]) []]) ∧
    ([Item.zero, Item.zero, Item.zero] ++
        items [(5, .str "p5"), (6, .str "p6"), (7, .str "p7")]).length = 6 :=
  ⟨rfl, rfl⟩

end GoDB
